import Mathlib

/-!
Verification of the coalescing and scheduling cores of a polyhedral library.

The development shallowly embeds the two source files
`isl_coalesce.c` and `isl_schedule.c`.  Pure decision logic
(status dispatch, counting, constraint selection, LP row layout,
list manipulation of basic maps) is translated directly from the C
source.  The external collaborators that the sources call but that are
not part of the repository -- the simplex tableau (`isl_tab_*`), the
wrapping primitive (`isl_set_wrap_facet`), Gauss / inequality-pair
normalisation (`isl_basic_map_gauss`, `isl_basic_map_detect_inequality_pairs`),
div merging (`isl_merge_divs`) and the ILP lexmin solver -- are modelled
as oracle parameters, following the interface contracts stated in the
specification.
-/

namespace Isl

/-- Constraint classification statuses, mirroring the `STATUS_*` defines of
`isl_coalesce.c` (lines 26-32).  `error` corresponds to `STATUS_ERROR`. -/
inductive Status where
  | error
  | redundant
  | valid
  | separate
  | cut
  | adjEq
  | adjIneq
deriving DecidableEq, Repr, Inhabited

/-- Embedding of `any(con, len, status)` (isl_coalesce.c lines 115-123). -/
def anyStat (con : List Status) (s : Status) : Bool :=
  con.any (fun c => c == s)

/-- Embedding of `count(con, len, status)` (isl_coalesce.c lines 125-134). -/
def countStat (con : List Status) (s : Status) : Nat :=
  (con.filter (fun c => c == s)).length

/-- Embedding of `all(con, len, status)` (isl_coalesce.c lines 136-147):
entries marked `REDUNDANT` are skipped, all others must equal `status`. -/
def allStat (con : List Status) (s : Status) : Bool :=
  con.all (fun c => c == Status.redundant || c == s)

/-- A constraint row `[c0, c1, ...]`, first entry the constant term. -/
abbrev Row := List Int

/-- A basic map: equalities, inequalities, div rows, and the flags that
the coalescer manipulates (`ISL_BASIC_MAP_RATIONAL`, `ISL_BASIC_MAP_FINAL`). -/
structure BasicMap where
  eqs : List Row
  ineqs : List Row
  divs : List Row
  rational : Bool
  final : Bool
deriving DecidableEq, Repr

instance : Inhabited BasicMap := ⟨⟨[], [], [], false, false⟩⟩

/-- The state mutated by the coalescer: the array `map->p` of basic maps
together with the parallel array `tabs` of tableaux.  Tableaux are pure
external objects here, identified abstractly by numbers. -/
structure MapState where
  p : List BasicMap
  tabs : List Nat
deriving DecidableEq, Repr

/-- Embedding of `drop(map, i, tabs)` (isl_coalesce.c lines 149-160):
the last basic map (and tab) is moved into slot `i` and the count shrinks. -/
def dropAt (s : MapState) (i : Nat) : MapState :=
  { p := (s.p.set i (s.p.getD (s.p.length - 1) default)).take (s.p.length - 1),
    tabs := (s.tabs.set i (s.tabs.getD (s.tabs.length - 1) 0)).take
      (s.tabs.length - 1) }

/-- Embedding of `exchange(map, i, j, tabs)` (isl_coalesce.c lines 162-176). -/
def exchange (s : MapState) (i j : Nat) : MapState :=
  { p := (s.p.set i (s.p.getD j default)).set j (s.p.getD i default),
    tabs := (s.tabs.set i (s.tabs.getD j 0)).set j (s.tabs.getD i 0) }

/-- The equality-selection loop of `fuse` (isl_coalesce.c lines 207-225 for
one of the two basic maps): equality `k` is kept exactly when both of its
status entries `eq[2k]` and `eq[2k+1]` are `STATUS_VALID`.  The status list
is consumed two entries per equality, matching the layout produced by
`eq_status_in`. -/
def fuseEqPickSome : List Row → List Status → List Row
  | [], _ => []
  | _ :: _, [] => []
  | _ :: _, [_] => []
  | r :: rs, t1 :: t2 :: ts =>
    if t1 == Status.valid && t2 == Status.valid then
      r :: fuseEqPickSome rs ts
    else
      fuseEqPickSome rs ts

/-- Equality selection with an optional status array: a `NULL` status
pointer in the C code (`eq_i == NULL`) keeps every equality. -/
def fuseEqPick (eqs : List Row) : Option (List Status) → List Row
  | none => eqs
  | some st => fuseEqPickSome eqs st

/-- The inequality-selection loop of `fuse` (isl_coalesce.c lines 227-243
for one of the two basic maps): inequality `k` is kept exactly when
`ineq[k] == STATUS_VALID`. -/
def fuseIneqPick : List Row → List Status → List Row
  | [], _ => []
  | _ :: _, [] => []
  | r :: rs, t :: ts =>
    if t == Status.valid then r :: fuseIneqPick rs ts else fuseIneqPick rs ts

/-- The constraint system assembled by `fuse` before normalisation
(isl_coalesce.c lines 200-257): valid equalities of both maps, valid
inequalities of both maps followed by the `extra` wrapping rows, and the
divs of basic map `i`. -/
def fuseSelect (bi bj : BasicMap) (eqI : Option (List Status))
    (ineqI : List Status) (eqJ : Option (List Status)) (ineqJ : List Status)
    (extra : List Row) : List Row × List Row :=
  (fuseEqPick bi.eqs eqI ++ fuseEqPick bj.eqs eqJ,
   fuseIneqPick bi.ineqs ineqI ++ fuseIneqPick bj.ineqs ineqJ ++ extra)

/-- External collaborators of the coalescer, modelled as oracle functions.
Each field abstracts one call path into code outside this repository
(tableau operations, `isl_set_wrap_facet`, div merging); the map/tab
indices passed identify the context of the call. -/
structure Oracle where
  /-- `eq_status_in(map->p[a], tabs[b])` (lines 54-81): status pairs of the
  equalities of basic map `a` against the tableau of `b`. -/
  eqStatus : MapState → Nat → Nat → List Status
  /-- `ineq_status_in(map->p[a], tabs[a], tabs[b])` (lines 87-113). -/
  ineqStatus : MapState → Nat → Nat → List Status
  /-- the tableau work of `is_adj_ineq_extension` (lines 420-468):
  `none` on tableau error, otherwise the result of the `contains` test. -/
  adjExt : MapState → Nat → Nat → Option Bool
  /-- `isl_tab_is_equality(tabs[i], n_eq + k)` at the head of
  `is_adj_eq_extension` (line 561). -/
  tabIsEquality : MapState → Nat → Nat → Bool
  /-- the relax/select-facet/`contains` test of `is_adj_eq_extension`
  (lines 564-570); `none` on tableau error. -/
  adjEqExtContains : MapState → Nat → Nat → Nat → Option Bool
  /-- the wrapping pipeline of `can_wrap_in_facet` (lines 836-908):
  `none` on error, `some []` when a wrap set was discarded (unbounded),
  otherwise the accumulated wrapping rows. -/
  wrapFacetRows : MapState → Nat → Nat → Nat → Option (List Row)
  /-- the wrapping pipeline of `check_eq_adj_eq` (lines 1221-1254). -/
  eqAdjEqWraps : MapState → Nat → Nat → Option (List Row)
  /-- the facet loop of `check_facets` (lines 320-347): `none` on error,
  otherwise whether every cut facet of `i` passed the test. -/
  facetsTest : MapState → Nat → Nat → Option Bool
  /-- the relax-and-test loop of `can_wrap_in_set` (lines 1077-1092):
  `none` on error, otherwise whether all relaxed cuts were redundant. -/
  cutsRelaxRedundant : MapState → Nat → Nat → Option Bool
  /-- the wrapping pipeline of `wrap_in_facets` (lines 930-996). -/
  wrapInFacetsRows : MapState → Nat → Nat → Option (List Row)
  /-- `isl_merge_divs` comparison in `check_coalesce_subset`
  (lines 1579-1586): whether `div->n_row == div_j->n_row`. -/
  mergeDivsMatch : MapState → Nat → Nat → Option Bool
  /-- statuses of the div-expanded copy of basic map `i` against `tabs[j]`
  in `coalesce_subset` (lines 1495-1515). -/
  subsetEqStatus : MapState → Nat → Nat → List Status
  subsetIneqStatus : MapState → Nat → Nat → List Status
  /-- `isl_basic_map_detect_inequality_pairs` (external), acting on the
  constraint system of the fused basic map. -/
  detectPairs : List Row × List Row → List Row × List Row
  /-- `isl_basic_map_gauss` (external), acting on the constraint system. -/
  gauss : List Row × List Row → List Row × List Row
  /-- the fresh tableau built from the fused basic map (line 267). -/
  freshTab : MapState → Nat → Nat → Nat

/-- Embedding of `fuse` for `i < j` (isl_coalesce.c lines 186-282): build
the basic map from the valid constraints of both plus `extra`, optionally
detect equality pairs, re-Gauss, mark final, inherit `rational` only when
both sources are rational (lines 259-265), install it in slot `i` and drop
slot `j`. -/
def fuseCore (O : Oracle) (s : MapState) (i j : Nat)
    (eqI : Option (List Status)) (ineqI : List Status)
    (eqJ : Option (List Status)) (ineqJ : List Status)
    (extra : List Row) (detectEqualities : Bool) : Bool × MapState :=
  let bi := s.p.getD i default
  let bj := s.p.getD j default
  let cons := fuseSelect bi bj eqI ineqI eqJ ineqJ extra
  let cons := if detectEqualities then O.detectPairs cons else cons
  let cons := O.gauss cons
  let fused : BasicMap :=
    { eqs := cons.1, ineqs := cons.2, divs := bi.divs,
      rational := bi.rational && bj.rational, final := true }
  let s1 : MapState :=
    { p := s.p.set i fused, tabs := s.tabs.set i (O.freshTab s i j) }
  (true, dropAt s1 j)

/-- Embedding of `fuse` (isl_coalesce.c lines 196-198): when `j < i` the
arguments are swapped so the fused map lands in the smaller slot. -/
def fuse (O : Oracle) (s : MapState) (i j : Nat)
    (eqI : Option (List Status)) (ineqI : List Status)
    (eqJ : Option (List Status)) (ineqJ : List Status)
    (extra : List Row) (detectEqualities : Bool) : Bool × MapState :=
  if j < i then
    fuseCore O s j i eqJ ineqJ eqI ineqI extra detectEqualities
  else
    fuseCore O s i j eqI ineqI eqJ ineqJ extra detectEqualities

/-- Embedding of `check_facets` (isl_coalesce.c lines 313-350): the
snapshot/select-facet loop is an oracle call; on success the pair is fused
from the valid constraints with `NULL` equality status arrays. -/
def checkFacets (O : Oracle) (s : MapState) (i j : Nat)
    (ineqI ineqJ : List Status) : Option (Bool × MapState) :=
  match O.facetsTest s i j with
  | none => none
  | some false => some (false, s)
  | some true => some (fuse O s i j none ineqI none ineqJ [] false)

/-- Embedding of `is_adj_ineq_extension` (isl_coalesce.c lines 420-468).
The function requires an inequality of `i` with status `ADJ_INEQ`
(internal error otherwise, line 435-438); the tableau manipulation and the
`contains` test are a single oracle call, after which the pair is fused
from the valid constraints. -/
def isAdjIneqExtension (O : Oracle) (s : MapState) (i j : Nat)
    (eqI ineqI eqJ ineqJ : List Status) : Option (Bool × MapState) :=
  if !(anyStat ineqI Status.adjIneq) then none
  else
    match O.adjExt s i j with
    | none => none
    | some true => some (fuse O s i j (some eqI) ineqI (some eqJ) ineqJ [] false)
    | some false => some (false, s)

/-- Embedding of `check_adj_ineq` (isl_coalesce.c lines 502-532): require
exactly one `ADJ_INEQ` inequality on at least one side; with no cuts and
exactly one on each side, fuse the valid constraints; with cuts on one
side only, try `is_adj_ineq_extension`. -/
def checkAdjIneq (O : Oracle) (s : MapState) (i j : Nat)
    (eqI ineqI eqJ ineqJ : List Status) : Option (Bool × MapState) :=
  let countI := countStat ineqI Status.adjIneq
  let countJ := countStat ineqJ Status.adjIneq
  if countI != 1 && countJ != 1 then some (false, s)
  else
    let cutI := anyStat eqI Status.cut || anyStat ineqI Status.cut
    let cutJ := anyStat eqJ Status.cut || anyStat ineqJ Status.cut
    if !cutI && !cutJ && countI == 1 && countJ == 1 then
      some (fuse O s i j none ineqI none ineqJ [] false)
    else if countI == 1 && !cutI then
      isAdjIneqExtension O s i j eqI ineqI eqJ ineqJ
    else if countJ == 1 && !cutJ then
      isAdjIneqExtension O s j i eqJ ineqJ eqI ineqI
    else
      some (false, s)

/-- Add `c` to the constant term of row `k` of the inequalities,
embedding `isl_int_add_ui(map->p[i]->ineq[k][0], ..., 1)`. -/
def relaxIneqConst (b : BasicMap) (k : Nat) : BasicMap :=
  { b with
    ineqs := b.ineqs.set k
      (match b.ineqs.getD k [] with
       | [] => []
       | c0 :: rest => (c0 + 1) :: rest) }

/-- Embedding of `is_adj_eq_extension` (isl_coalesce.c lines 553-591):
unless constraint `k` is an equality in the tableau, relax it, select the
facet and test containment in `j` (oracle); on success the relaxed basic
map is marked final and the other basic map is dropped (with an exchange
when `j < i` so the survivor lands in the smaller slot). -/
def isAdjEqExtension (O : Oracle) (s : MapState) (i j k : Nat) :
    Option (Bool × MapState) :=
  if O.tabIsEquality s i k then some (false, s)
  else
    match O.adjEqExtContains s i j k with
    | none => none
    | some true =>
      let bi := relaxIneqConst (s.p.getD i default) k
      let bi := { bi with final := true }
      let s1 : MapState := { s with p := s.p.set i bi }
      if j < i then some (true, dropAt (exchange s1 i j) i)
      else some (true, dropAt s1 j)
    | some false => some (false, s)

/-- Embedding of `can_wrap_in_facet` (isl_coalesce.c lines 836-908): the
wrapping computation is an oracle call; an empty wrap set means
"unbounded" and leaves the pair untouched, otherwise the pair is fused
with the wrapping rows as extra constraints. -/
def canWrapInFacet (O : Oracle) (s : MapState) (i j k : Nat)
    (eqI ineqI eqJ ineqJ : List Status) : Option (Bool × MapState) :=
  match O.wrapFacetRows s i j k with
  | none => none
  | some [] => some (false, s)
  | some rows => some (fuse O s i j (some eqI) ineqI (some eqJ) ineqJ rows false)

/-- Index of the first entry equal to `st`, mirroring the C search loops
`for (k = 0; ...; ++k) if (con[k] == STATUS) break;`. -/
def firstIdx (con : List Status) (st : Status) : Nat :=
  match con with
  | [] => 0
  | c :: cs => if c == st then 0 else firstIdx cs st + 1

/-- The asymmetric core of `check_adj_eq` (isl_coalesce.c lines 1152-1180),
entered with basic map `j` owning the equality adjacent to an inequality
of `i`: bail out on any cut in `i`, on more than one adjacent inequality,
or on stray adjacencies; then try `is_adj_eq_extension` and finally
`can_wrap_in_facet` when `j` has exactly one adjacent equality entry. -/
def checkAdjEqCore (O : Oracle) (s : MapState) (i j : Nat)
    (eqI ineqI eqJ ineqJ : List Status) : Option (Bool × MapState) :=
  if anyStat eqI Status.cut then some (false, s)
  else if anyStat ineqI Status.cut then some (false, s)
  else if countStat ineqI Status.adjEq != 1 || anyStat ineqJ Status.adjEq ||
      anyStat ineqI Status.adjIneq || anyStat ineqJ Status.adjIneq then
    some (false, s)
  else
    let k := firstIdx ineqI Status.adjEq
    match isAdjEqExtension O s i j k with
    | none => none
    | some (true, s1) => some (true, s1)
    | some (false, _) =>
      if countStat eqJ Status.adjIneq != 1 then some (false, s)
      else canWrapInFacet O s i j k eqI ineqI eqJ ineqJ

/-- Embedding of `check_adj_eq` (isl_coalesce.c lines 1137-1181): refuse
when both basic maps have an equality adjacent to an inequality, otherwise
orient the pair so that `j` owns the adjacent equality. -/
def checkAdjEq (O : Oracle) (s : MapState) (i j : Nat)
    (eqI ineqI eqJ ineqJ : List Status) : Option (Bool × MapState) :=
  if anyStat eqI Status.adjIneq && anyStat eqJ Status.adjIneq then
    some (false, s)
  else if anyStat eqI Status.adjIneq then
    checkAdjEqCore O s j i eqJ ineqJ eqI ineqI
  else
    checkAdjEqCore O s i j eqI ineqI eqJ ineqJ

/-- Embedding of `check_eq_adj_eq` (isl_coalesce.c lines 1201-1270): the
two wrapping passes are an oracle call; equality detection on the fused
result is requested unless `i` has exactly one `ADJ_EQ` equality entry
(lines 1214-1215). -/
def checkEqAdjEq (O : Oracle) (s : MapState) (i j : Nat)
    (eqI ineqI eqJ ineqJ : List Status) : Option (Bool × MapState) :=
  let detectEqualities := countStat eqI Status.adjEq != 1
  match O.eqAdjEqWraps s i j with
  | none => none
  | some [] => some (false, s)
  | some rows =>
    some (fuse O s i j (some eqI) ineqI (some eqJ) ineqJ rows detectEqualities)

/-- Embedding of `can_wrap_in_set` (isl_coalesce.c lines 1057-1104): refuse
outright on rational basic maps (lines 1065-1067) and when `i` has no cut
inequality; otherwise test that each relaxed cut is redundant in `j`
(oracle) and hand over to the `wrap_in_facets` pipeline. -/
def canWrapInSet (O : Oracle) (s : MapState) (i j : Nat)
    (eqI ineqI eqJ ineqJ : List Status) : Option (Bool × MapState) :=
  let bi := s.p.getD i default
  let bj := s.p.getD j default
  if bi.rational || bj.rational then some (false, s)
  else if countStat ineqI Status.cut == 0 then some (false, s)
  else
    match O.cutsRelaxRedundant s i j with
    | none => none
    | some false => some (false, s)
    | some true =>
      match O.wrapInFacetsRows s i j with
      | none => none
      | some [] => some (false, s)
      | some rows =>
        some (fuse O s i j (some eqI) ineqI (some eqJ) ineqJ rows false)

/-- Embedding of `check_wrap` (isl_coalesce.c lines 1110-1125): try
wrapping into `i` when `i` has no cut equality, then into `j`. -/
def checkWrap (O : Oracle) (s : MapState) (i j : Nat)
    (eqI ineqI eqJ ineqJ : List Status) : Option (Bool × MapState) :=
  if !(anyStat eqI Status.cut) then
    match canWrapInSet O s i j eqI ineqI eqJ ineqJ with
    | none => none
    | some (true, s1) => some (true, s1)
    | some (false, _) =>
      if !(anyStat eqJ Status.cut) then
        canWrapInSet O s j i eqJ ineqJ eqI ineqI
      else some (false, s)
  else if !(anyStat eqJ Status.cut) then
    canWrapInSet O s j i eqJ ineqJ eqI ineqI
  else some (false, s)

/-- The final branch of `coalesce_local_pair` (isl_coalesce.c lines
1421-1428): with no adjacencies left, try `check_facets` when neither
basic map has a cut equality, and fall through to `check_wrap` only when
that did not change anything (an error short-circuits). -/
def checkFacetsOrWrap (O : Oracle) (s : MapState) (i j : Nat)
    (eqI ineqI eqJ ineqJ : List Status) : Option (Bool × MapState) :=
  match
    (if !(anyStat eqI Status.cut) && !(anyStat eqJ Status.cut) then
      checkFacets O s i j ineqI ineqJ
    else some (false, s)) with
  | none => none
  | some (true, s1) => some (true, s1)
  | some (false, _) => checkWrap O s i j eqI ineqI eqJ ineqJ

/-- The case dispatch of `coalesce_local_pair` (isl_coalesce.c lines
1395-1428), entered once no status array holds `ERROR` or `SEPARATE`.
The `BAD ADJ INEQ` branch (lines 1413-1416) is an empty statement in the
source and therefore leaves the state untouched. -/
def coalesceLocalPairDispatch (O : Oracle) (s : MapState) (i j : Nat)
    (eqI eqJ ineqI ineqJ : List Status) : Option (Bool × MapState) :=
  if allStat eqI Status.valid && allStat ineqI Status.valid then
    some (true, dropAt s j)
  else if allStat eqJ Status.valid && allStat ineqJ Status.valid then
    some (true, dropAt s i)
  else if anyStat eqI Status.adjEq then
    checkEqAdjEq O s i j eqI ineqI eqJ ineqJ
  else if anyStat eqJ Status.adjEq then
    checkEqAdjEq O s j i eqJ ineqJ eqI ineqI
  else if anyStat eqI Status.adjIneq || anyStat eqJ Status.adjIneq then
    checkAdjEq O s i j eqI ineqI eqJ ineqJ
  else if anyStat ineqI Status.adjEq || anyStat ineqJ Status.adjEq then
    some (false, s)
  else if anyStat ineqI Status.adjIneq || anyStat ineqJ Status.adjIneq then
    checkAdjIneq O s i j eqI ineqI eqJ ineqJ
  else
    checkFacetsOrWrap O s i j eqI ineqI eqJ ineqJ

/-- The status guards of `coalesce_local_pair` (isl_coalesce.c lines
1363-1393) over the four status arrays: the early exits on `ERROR` and
`SEPARATE` in source order, then the case dispatch. -/
def coalesceLocalPairSt (O : Oracle) (s : MapState) (i j : Nat)
    (eqI eqJ ineqI ineqJ : List Status) : Option (Bool × MapState) :=
  if anyStat eqI Status.error then none
  else if anyStat eqI Status.separate then some (false, s)
  else if anyStat eqJ Status.error then none
  else if anyStat eqJ Status.separate then some (false, s)
  else if anyStat ineqI Status.error then none
  else if anyStat ineqI Status.separate then some (false, s)
  else if anyStat ineqJ Status.error then none
  else if anyStat ineqJ Status.separate then some (false, s)
  else coalesceLocalPairDispatch O s i j eqI eqJ ineqI ineqJ

/-- Embedding of `coalesce_local_pair` (isl_coalesce.c lines 1354-1442):
the four status arrays are computed once (lines 1363-1393) and the
dispatch runs over them. -/
def coalesceLocalPair (O : Oracle) (s : MapState) (i j : Nat) :
    Option (Bool × MapState) :=
  coalesceLocalPairSt O s i j (O.eqStatus s i j) (O.eqStatus s j i)
    (O.ineqStatus s i j) (O.ineqStatus s j i)

/-- Are all div rows known, i.e. have a non-zero denominator?  Embedding of
`isl_basic_map_divs_known` as used by the coalescer. -/
def divsKnown (b : BasicMap) : Bool :=
  b.divs.all (fun d => d.headD 0 != 0)

/-- Embedding of `same_divs` (isl_coalesce.c lines 1449-1477): equal div
counts, and either no divs at all or all divs known and equal row by row. -/
def sameDivs (b1 b2 : BasicMap) : Bool :=
  if b1.divs.length != b2.divs.length then false
  else if b1.divs.length == 0 then true
  else if !(divsKnown b1) then false
  else if !(divsKnown b2) then false
  else b1.divs == b2.divs

/-- Embedding of `coalesce_subset` (isl_coalesce.c lines 1487-1533): the
statuses of the div-expanded copy of `i` against `j` come from the oracle;
with no separate or error entry, `j` is dropped when every constraint of
the original `i` is valid (the `all` calls run over `2 * map->p[i]->n_eq`
and `map->p[i]->n_ineq` entries, i.e. a prefix sized by the unexpanded
basic map). -/
def coalesceSubset (O : Oracle) (s : MapState) (i j : Nat) :
    Option (Bool × MapState) :=
  let bi := s.p.getD i default
  let eqI := O.subsetEqStatus s i j
  let ineqI := O.subsetIneqStatus s i j
  if anyStat eqI Status.error then none
  else if anyStat eqI Status.separate then some (false, s)
  else if anyStat ineqI Status.error then none
  else if anyStat ineqI Status.separate then some (false, s)
  else if allStat (eqI.take (2 * bi.eqs.length)) Status.valid &&
      allStat (ineqI.take bi.ineqs.length) Status.valid then
    some (true, dropAt s j)
  else some (false, s)

/-- The oriented core of `check_coalesce_subset` (isl_coalesce.c lines
1562-1596), entered with `i` owning fewer divs than `j`: `i`'s divs must
all be known and (via `isl_merge_divs`, oracle) form a subset of `j`'s. -/
def checkCoalesceSubsetCore (O : Oracle) (s : MapState) (i j : Nat) :
    Option (Bool × MapState) :=
  if !(divsKnown (s.p.getD i default)) then some (false, s)
  else
    match O.mergeDivsMatch s i j with
    | none => none
    | some false => some (false, s)
    | some true => coalesceSubset O s i j

/-- Embedding of `check_coalesce_subset` (isl_coalesce.c lines 1547-1603):
nothing to do for equal div counts; otherwise orient so the basic map with
fewer divs comes first. -/
def checkCoalesceSubset (O : Oracle) (s : MapState) (i j : Nat) :
    Option (Bool × MapState) :=
  if (s.p.getD i default).divs.length == (s.p.getD j default).divs.length then
    some (false, s)
  else if (s.p.getD j default).divs.length < (s.p.getD i default).divs.length then
    checkCoalesceSubsetCore O s j i
  else
    checkCoalesceSubsetCore O s i j

/-- Embedding of `coalesce_pair` (isl_coalesce.c lines 1614-1626): full
pairwise check in the same local space, subset check otherwise. -/
def coalescePair (O : Oracle) (s : MapState) (i j : Nat) :
    Option (Bool × MapState) :=
  if sameDivs (s.p.getD i default) (s.p.getD j default) then
    coalesceLocalPair O s i j
  else
    checkCoalesceSubset O s i j

/-- Result of the fuelled coalescing loop: `fuelOut` is only reached when
the supplied fuel is insufficient, `fail` mirrors the `changed < 0` error
exit of `coalesce`. -/
inductive CoalesceResult where
  | fuelOut
  | fail
  | done (s : MapState)
deriving DecidableEq, Repr

/-- Embedding of the restarting double loop of `coalesce` (isl_coalesce.c
lines 1628-1646), parameterised by the pair function and an explicit fuel.
`i` runs from `map->n - 2` down to `0`; on a change the inner loop restarts
at `j = i + 1`; when the inner loop falls off the end, the outer index is
decremented with the inner loop re-entered at `j = i`. -/
def coalesceAux (pair : MapState → Nat → Nat → Option (Bool × MapState)) :
    Nat → MapState → Nat → Nat → CoalesceResult
  | 0, _, _, _ => CoalesceResult.fuelOut
  | fuel + 1, s, i, j =>
    if j < s.p.length then
      match pair s i j with
      | none => CoalesceResult.fail
      | some (true, s1) => coalesceAux pair fuel s1 i (i + 1)
      | some (false, s1) => coalesceAux pair fuel s1 i (j + 1)
    else
      if i = 0 then CoalesceResult.done s
      else coalesceAux pair fuel s (i - 1) i

/-- Embedding of `coalesce` (isl_coalesce.c lines 1628-1646) for maps with
at least two basic maps, starting at `i = map->n - 2`, `j = i + 1`. -/
def coalesce (O : Oracle) (fuel : Nat) (s : MapState) : CoalesceResult :=
  if s.p.length ≤ 1 then CoalesceResult.done s
  else coalesceAux (coalescePair O) fuel s (s.p.length - 2) (s.p.length - 1)

/-- The `isl_wraps` record (isl_coalesce.c lines 600-604): the bounding
flag, the matrix of wrapping rows (its length plays the role of `n_row`),
and the coefficient cap `max`. -/
structure Wraps where
  bound : Bool
  mat : List Row
  max : Int
deriving DecidableEq, Repr

/-- `isl_seq_abs_max(row + 1, total, &max)`: the largest absolute value
among the non-constant entries of a constraint row. -/
def absMaxTail (row : Row) : Int :=
  (row.drop 1).foldl (fun m a => Max.max m (Int.natAbs a : Int)) 0

/-- The equality loop of `wraps_update_max` (isl_coalesce.c lines 619-626):
equalities whose two status entries are both `STATUS_VALID` are skipped
(they survive `fuse`), all others contribute their largest absolute
coefficient. -/
def wrapsMaxEqs : List Row → List Status → Int → Int
  | [], _, cur => cur
  | _ :: _, [], cur => cur
  | _ :: _, [_], cur => cur
  | r :: rs, t1 :: t2 :: ts, cur =>
    if t1 == Status.valid && t2 == Status.valid then wrapsMaxEqs rs ts cur
    else wrapsMaxEqs rs ts (Max.max cur (absMaxTail r))

/-- The inequality loop of `wraps_update_max` (isl_coalesce.c lines
628-634): inequalities with status `STATUS_VALID` or `STATUS_REDUNDANT`
are skipped, all others contribute their largest absolute coefficient. -/
def wrapsMaxIneqs : List Row → List Status → Int → Int
  | [], _, cur => cur
  | _ :: _, [], cur => cur
  | r :: rs, t :: ts, cur =>
    if t == Status.valid || t == Status.redundant then wrapsMaxIneqs rs ts cur
    else wrapsMaxIneqs rs ts (Max.max cur (absMaxTail r))

/-- `wraps_update_max(wraps, bmap, eq, ineq)` (isl_coalesce.c lines
610-637): fold the equality loop, then the inequality loop. -/
def wrapsUpdateMax (b : BasicMap) (eq ineq : List Status) (cur : Int) : Int :=
  wrapsMaxIneqs b.ineqs ineq (wrapsMaxEqs b.eqs eq cur)

/-- `wraps_init` (isl_coalesce.c lines 645-663) with the
`coalesce_bounded_wrapping` option value passed in as `optBound`: when
bounding is requested, `max` starts at `0` and is raised over the
removable constraints of both basic maps. -/
def wrapsInit (optBound : Bool) (mat : List Row) (bi bj : BasicMap)
    (eqI ineqI eqJ ineqJ : List Status) : Wraps :=
  if !optBound then { bound := false, mat := mat, max := 0 }
  else
    { bound := true, mat := mat,
      max := wrapsUpdateMax bj eqJ ineqJ (wrapsUpdateMax bi eqI ineqI 0) }

/-- `allow_wrap(wraps, row)` (isl_coalesce.c lines 679-691): with bounding
active, every non-constant coefficient of the wrapped row must stay within
`max` in absolute value. -/
def allowWrap (w : Wraps) (row : Row) : Bool :=
  !w.bound || (row.drop 1).all (fun a => decide ((Int.natAbs a : Int) ≤ w.max))

/-- `isl_seq_neg`: the entrywise negation of a row. -/
def negRow (r : Row) : Row := r.map (fun a => -a)

/-- Result of one wrapping loop: a tableau/wrapping error, the
"unbounded" abort that resets the wrap matrix, or the list of accepted
wrapped rows. -/
inductive WrapRes where
  | err
  | unbounded
  | ok (rows : List Row)
deriving DecidableEq, Repr

/-- The inequality loop of `add_wraps` (isl_coalesce.c lines 716-732) over
the constraints of `bmap` paired with their tableau redundancy: skip rows
equal or opposite to `bound` and redundant rows; wrap the rest via
`isl_set_wrap_facet` (the `wf` parameter, `none` on error); abort the
whole set when a wrap reproduces `bound` or violates the bound check. -/
def addWrapsIneq (wf : Row → Row → Option Row) (w : Wraps) (bound : Row) :
    List (Row × Bool) → WrapRes
  | [] => WrapRes.ok []
  | (c, red) :: rest =>
    if bound == negRow c then addWrapsIneq wf w bound rest
    else if bound == c then addWrapsIneq wf w bound rest
    else if red then addWrapsIneq wf w bound rest
    else
      match wf bound c with
      | none => WrapRes.err
      | some r =>
        if r == bound then WrapRes.unbounded
        else if !(allowWrap w r) then WrapRes.unbounded
        else
          match addWrapsIneq wf w bound rest with
          | WrapRes.ok rs => WrapRes.ok (r :: rs)
          | other => other

/-- The equality loop of `add_wraps` (isl_coalesce.c lines 733-758): each
equality not equal or opposite to `bound` is wrapped twice, first by its
negation and then by itself, with the same abort conditions. -/
def addWrapsEq (wf : Row → Row → Option Row) (w : Wraps) (bound : Row) :
    List Row → WrapRes
  | [] => WrapRes.ok []
  | e :: rest =>
    if bound == negRow e then addWrapsEq wf w bound rest
    else if bound == e then addWrapsEq wf w bound rest
    else
      match wf bound (negRow e) with
      | none => WrapRes.err
      | some r1 =>
        if r1 == bound then WrapRes.unbounded
        else if !(allowWrap w r1) then WrapRes.unbounded
        else
          match wf bound e with
          | none => WrapRes.err
          | some r2 =>
            if r2 == bound then WrapRes.unbounded
            else if !(allowWrap w r2) then WrapRes.unbounded
            else
              match addWrapsEq wf w bound rest with
              | WrapRes.ok rs => WrapRes.ok (r1 :: r2 :: rs)
              | other => other

/-- `add_wraps(wraps, bmap, tab, bound, set)` (isl_coalesce.c lines
707-765): run the inequality loop then the equality loop, appending the
accepted rows to the wrap matrix; any "unbounded" abort resets the matrix
row count to zero (an empty matrix here); errors propagate as `none`. -/
def addWraps (wf : Row → Row → Option Row) (w : Wraps)
    (ineqs : List (Row × Bool)) (eqs : List Row) (bound : Row) :
    Option Wraps :=
  match addWrapsIneq wf w bound ineqs with
  | WrapRes.err => none
  | WrapRes.unbounded => some { w with mat := [] }
  | WrapRes.ok rs1 =>
    match addWrapsEq wf w bound eqs with
    | WrapRes.err => none
    | WrapRes.unbounded => some { w with mat := [] }
    | WrapRes.ok rs2 => some { w with mat := w.mat ++ rs1 ++ rs2 }

/-- The skip conditions of the inequality loop of `add_wraps`
(isl_coalesce.c lines 717-722): the constraint equals the bound or its
negation, or is redundant in its tableau. -/
abbrev skipIneqRow (bound : Row) (p : Row × Bool) : Prop :=
  bound = negRow p.1 ∨ bound = p.1 ∨ p.2 = true

/-- The skip conditions of the equality loop of `add_wraps`
(isl_coalesce.c lines 734-737). -/
abbrev skipEqRow (bound e : Row) : Prop :=
  bound = negRow e ∨ bound = e

/-- A wrapping result that triggers the abort of `add_wraps`: the wrap
reproduced the bound row, or it violates the coefficient cap. -/
abbrev badWrapRes (w : Wraps) (bound : Row) (res : Option Row) : Prop :=
  res = some bound ∨ ∃ r, res = some r ∧ allowWrap w r = false

/-- The inequality loop of `wraps_update_max` with only the `fuse` drop
criterion (inequality not `STATUS_VALID`): this set is a superset of the
one used by the code, which also skips `STATUS_REDUNDANT`. -/
def droppedMaxIneqs : List Row → List Status → Int → Int
  | [], _, cur => cur
  | _ :: _, [], cur => cur
  | r :: rs, t :: ts, cur =>
    if t == Status.valid then droppedMaxIneqs rs ts cur
    else droppedMaxIneqs rs ts (Max.max cur (absMaxTail r))

/-- The largest absolute non-constant coefficient over all constraints of
`b` that `fuse` would drop (equalities not doubly valid, inequalities not
`STATUS_VALID`). -/
def droppedMax (b : BasicMap) (eq ineq : List Status) (cur : Int) : Int :=
  droppedMaxIneqs b.ineqs ineq (wrapsMaxEqs b.eqs eq cur)

/-- The state inspected by `compute_schedule_wcc` when the main LP comes
back infeasible (isl_schedule.c lines 3649-3664): whether coincidence
constraints are currently in use, whether `schedule_outer_coincidence`
forces them, whether the current band is empty
(`graph->n_total_row == graph->band_start`), the
`schedule_maximize_band_depth` option, and whether a conflicting SCC pair
was recorded (`graph->src_scc >= 0`). -/
structure WccState where
  useCoincidence : Bool
  forceCoincidence : Bool
  bandEmpty : Bool
  maximizeBandDepth : Bool
  srcSccSet : Bool
deriving DecidableEq, Repr

/-- The four ways `compute_schedule_wcc` reacts to an infeasible LP. -/
inductive InfeasibleAction where
  | retryNoCoincidence
  | nextBand
  | splitSchedule
  | carry
deriving DecidableEq, Repr

/-- Embedding of the infeasible branch of `compute_schedule_wcc`
(isl_schedule.c lines 3649-3664): first the coincidence retry guarded by
`use_coincidence && (!force_coincidence || !empty)`, then band closing
when band depth is not maximised, then the SCC split, then band closing,
then carrying. -/
def infeasibleAction (s : WccState) : InfeasibleAction :=
  if s.useCoincidence && (!s.forceCoincidence || !s.bandEmpty) then
    InfeasibleAction.retryNoCoincidence
  else if !s.maximizeBandDepth && !s.bandEmpty then
    InfeasibleAction.nextBand
  else if s.srcSccSet then InfeasibleAction.splitSchedule
  else if !s.bandEmpty then InfeasibleAction.nextBand
  else InfeasibleAction.carry

/-- The behaviour asserted by claim C3, written from its words: retry
without coincidence iff coincidence was in use, outer coincidence is not
forced, and the band is non-empty; otherwise close the band, then split,
then carry, in that order. -/
def claimedInfeasibleAction (s : WccState) : InfeasibleAction :=
  if s.useCoincidence && !s.forceCoincidence && !s.bandEmpty then
    InfeasibleAction.retryNoCoincidence
  else if !s.bandEmpty then InfeasibleAction.nextBand
  else if s.srcSccSet then InfeasibleAction.splitSchedule
  else InfeasibleAction.carry

/-- The amended behaviour, written from the corrected words: retry iff
coincidence was in use and (outer coincidence is not forced or the band is
non-empty); otherwise close the band when `schedule_maximize_band_depth`
is unset and the band is non-empty; otherwise split when an SCC pair was
recorded; otherwise close a non-empty band; otherwise carry. -/
def amendedInfeasibleAction (s : WccState) : InfeasibleAction :=
  if s.useCoincidence && (!s.forceCoincidence || !s.bandEmpty) then
    InfeasibleAction.retryNoCoincidence
  else if !s.bandEmpty && !s.maximizeBandDepth then
    InfeasibleAction.nextBand
  else if s.srcSccSet then InfeasibleAction.splitSchedule
  else if !s.bandEmpty then InfeasibleAction.nextBand
  else InfeasibleAction.carry

/-- Dot product of an integer coefficient row with a rational variable
vector, pairing entries positionally. -/
def dot : List Int → List ℚ → ℚ
  | [], _ => 0
  | _, [] => 0
  | a :: as, b :: bs => (a : ℚ) * b + dot as bs

/-- Evaluation of an LP row `[c0, c1, ...]` on a variable vector, as in
the tableau convention: constant term plus the coefficients applied to
the variables. -/
def rowEval (row : Row) (v : List ℚ) : ℚ :=
  ((row.headD 0 : Int) : ℚ) + dot (row.drop 1) v

/-- Total number of columns of the carry LP (isl_schedule.c lines
3014-3020): three global sums, one slack `e_i` per dependence basic map,
then the per-node blocks (collapsed into a single count here). -/
def carryTotal (nEdge nodeSz : Nat) : Nat := 3 + nEdge + nodeSz

/-- One slack per basic map of each dependence relation: `n_edge` in
`setup_carry_lp` and `carry_dependences` is the sum over all edges of
`edge->map->n` (isl_schedule.c lines 3010-3012 and 3220-3222). -/
def carryNEdge (edgeMaps : List Nat) : Nat := edgeMaps.sum

/-- The first equality row of `setup_carry_lp` (isl_schedule.c lines
3033-3041): `-n_edge + x_1 + sum of the e_i = 0`, making column 1 the sum
of `(1 - e_i)` over all edges. -/
def carryEqRow1 (nEdge nodeSz : Nat) : Row :=
  [-(nEdge : Int), 1, 0, 0] ++ List.replicate nEdge 1 ++
    List.replicate nodeSz 0

/-- The `i`-th slack inequality of `setup_carry_lp` (isl_schedule.c lines
3066-3073): `1 - e_i >= 0`. -/
def carryIneqRow (nEdge nodeSz i : Nat) : Row :=
  [1, 0, 0, 0] ++ ((List.replicate nEdge (0 : Int)).set i (-1)) ++
    List.replicate nodeSz 0

/-- The part of carry-LP feasibility used by the claims: the solution
vector has one entry per column, all entries are non-negative (the solver
is `isl_tab_basic_set_non_neg_lexmin`), the first equality row holds, and
every slack inequality holds.  The remaining rows (the other two sums,
the coefficient bounds and the per-edge constraints) only restrict the
solution set further. -/
def carryFeasible (nEdge nodeSz : Nat) (v : List ℚ) : Prop :=
  v.length = carryTotal nEdge nodeSz ∧
  (∀ x ∈ v, 0 ≤ x) ∧
  rowEval (carryEqRow1 nEdge nodeSz) v = 0 ∧
  ∀ i < nEdge, 0 ≤ rowEval (carryIneqRow nEdge nodeSz i) v

/-- The value of slack `e_i` in a solution vector (column `4 + i` of the
LP, position `3 + i` of the variable vector). -/
def carrySlack (v : List ℚ) (i : Nat) : ℚ := v.getD (3 + i) 0

/-- The sum of all slacks `e_i` of a solution vector. -/
def carrySlackSum (nEdge : Nat) (v : List ℚ) : ℚ :=
  ((v.drop 3).take nEdge).sum

/-- Outcomes of `carry_dependences` (isl_schedule.c lines 3211-3262). -/
inductive CarryOutcome where
  | errorInternal
  | errorCarry
  | errorNonTrivial
  | componentFallback
  | proceed
deriving DecidableEq, Repr

/-- The decision logic of `carry_dependences` (isl_schedule.c lines
3230-3253): an empty solution is an internal error; a first coordinate
(the sum of `1 - e_i`) at least `n_edge` raises "unable to carry
dependences"; a trivial solution on a node that needs a row falls back to
per-component scheduling when the graph has more than one SCC and
otherwise raises "unable to construct non-trivial solution". -/
def carryDecision (nEdge : Nat) (solEmpty : Bool) (sol1 : ℚ)
    (trivialAny : Bool) (nScc : Nat) : CarryOutcome :=
  if solEmpty then CarryOutcome.errorInternal
  else if (nEdge : ℚ) ≤ sol1 then CarryOutcome.errorCarry
  else if trivialAny then
    if 1 < nScc then CarryOutcome.componentFallback
    else CarryOutcome.errorNonTrivial
  else CarryOutcome.proceed

/-- Lexicographic `<=` on integer value lists of equal length. -/
def lexLeB : List Int → List Int → Bool
  | [], _ => true
  | _ :: _, [] => false
  | a :: as, b :: bs => a < b || (a == b && lexLeB as bs)

/-- Lexicographic `<` on integer value lists. -/
def lexLtB : List Int → List Int → Bool
  | [], _ => false
  | _ :: _, [] => false
  | a :: as, b :: bs => a < b || (a == b && lexLtB as bs)

/-- The per-edge state maintained by the scheduler for one dependence
edge with source instances `α` and sink instances `β`: the remaining
dependence relation `edge->map` and the schedule rows accumulated so far
for source and sink node (each row acting as an affine function on the
instances). -/
structure EdgeState (α β : Type) where
  rel : α → β → Prop
  src : List (α → Int)
  dst : List (β → Int)

/-- The schedule values a node's rows assign to an instance. -/
def srcVals {α β : Type} (s : EdgeState α β) (x : α) : List Int :=
  s.src.map (fun f => f x)

def dstVals {α β : Type} (s : EdgeState α β) (y : β) : List Int :=
  s.dst.map (fun g => g y)

/-- One block of schedule rows appended by the scheduler between two
passes of `update_edges`, together with the update of the edge relation.

The hypothesis `hnn` is the guarantee delivered by the LP solver for the
constraints generated by `add_all_validity_constraints` / the carry LP
(modelled from the spec, the solver being external): on every pair still
in the remaining relation, the schedule values of the appended block are
lexicographically non-decreasing from source to sink.  This holds for a
band of rows each with non-negative distance, for a carry row with
distance at least `e_i >= 0`, for the 0/1 row of `compute_split_schedule`
(no backward validity edges), for the SCC row of `sort_statements`, for
the two rows produced by `split_scaled`, and for the zero rows of
`pad_schedule`.

The relation update is `update_edge` (isl_schedule.c lines 2181-2226):
the edge map is intersected with the pairs on which the source and sink
schedules (all rows built so far) agree. -/
inductive SchedStep {α β : Type} : EdgeState α β → EdgeState α β → Prop
  | block (s : EdgeState α β) (fs : List (α → Int)) (gs : List (β → Int))
      (hnn : ∀ x y, s.rel x y →
        lexLeB (fs.map (fun f => f x)) (gs.map (fun g => g y)) = true)
      (hlen : fs.length = gs.length) :
      SchedStep s
        { rel := fun x y => s.rel x y ∧
            (s.src ++ fs).map (fun f => f x) = (s.dst ++ gs).map (fun g => g y),
          src := s.src ++ fs,
          dst := s.dst ++ gs }

/-- The per-node schedule row counts and the global row counter
`graph->n_total_row`, the data whose invariant claim C10 states. -/
structure RowState where
  rows : List Nat
  total : Nat
deriving DecidableEq, Repr

/-- Row-count effect of `update_schedule` (isl_schedule.c lines
2001-2065), `sort_statements` (2235-2282), `split_on_scc` (3668-3695) and
the extra row of `split_scaled` (3089-3166): one row is appended to every
node and `n_total_row` is incremented. -/
def addRowAll (g : RowState) : RowState :=
  { rows := g.rows.map (fun r => r + 1), total := g.total + 1 }

/-- Row-count effect of `reset_band` (isl_schedule.c lines 2624-2647):
`d = n_total_row - band_start` rows are dropped from every node and from
the counters. -/
def resetRows (g : RowState) (d : Nat) : RowState :=
  { rows := g.rows.map (fun r => r - d), total := g.total - d }

/-- Row-count effect of `pad_schedule` (isl_schedule.c lines 2601-2621):
every node is padded with `n_total_row - row` zero rows. -/
def padRows (g : RowState) : RowState :=
  { rows := g.rows.map (fun r => r + (g.total - r)), total := g.total }

/-- The nodes selected (`b = true`) or rejected by a node predicate, as in
`copy_nodes` (isl_schedule.c lines 2355-2383). -/
def maskFilter (mask : List Bool) (l : List Nat) (b : Bool) : List Nat :=
  ((mask.zip l).filter (fun x => x.1 == b)).map (fun x => x.2)

/-- Reassembling the node list from the two sub-schedules, as in
`copy_schedule` (isl_schedule.c lines 2460-2484). -/
def maskMerge : List Bool → List Nat → List Nat → List Nat
  | [], _, _ => []
  | true :: m, a :: as, bs => a :: maskMerge m as bs
  | true :: _, [], _ => []
  | false :: m, as, b :: bs => b :: maskMerge m as bs
  | false :: _, _, [] => []

/-- Complete runs of `compute_schedule` on the row-count state.

`add` covers every call that appends a row to all nodes simultaneously;
`reset` covers `reset_band`; `split` covers both `compute_split_schedule`
(isl_schedule.c lines 2664-2756) and `compute_component_schedule`
(3703-3750): the node set is partitioned, each part is scheduled on its
own starting from the current `n_total_row`, the parent counter becomes
the maximum of the parts' counters, and `pad_schedule` pads every node up
to it.  The component loop over more than two components is represented
by nesting `split` (the running maximum and the final padding compose). -/
inductive SRun : RowState → RowState → Prop
  | refl (g : RowState) : SRun g g
  | add (g g1 : RowState) : SRun (addRowAll g) g1 → SRun g g1
  | reset (g : RowState) (d : Nat) (g1 : RowState) :
      SRun (resetRows g d) g1 → SRun g g1
  | split (g : RowState) (mask : List Bool) (a1 a2 : List Nat)
      (t1 t2 : Nat) (g1 : RowState) :
      SRun { rows := maskFilter mask g.rows true, total := g.total }
        { rows := a1, total := t1 } →
      SRun { rows := maskFilter mask g.rows false, total := g.total }
        { rows := a2, total := t2 } →
      SRun (padRows { rows := maskMerge mask a1 a2, total := Max.max t1 t2 })
        g1 →
      SRun g g1

/-- Every node's schedule matrix has exactly `n_total_row` rows. -/
def uniformRows (g : RowState) : Prop :=
  ∀ r ∈ g.rows, r = g.total

/-- Common postcondition of the pair-combining routines: an unchanged
report leaves the state untouched, a change report shrinks the basic-map
list by one. -/
def pairPost (s : MapState) (b : Bool) (s1 : MapState) : Prop :=
  (b = false ∧ s1 = s) ∨ (b = true ∧ s1.p.length = s.p.length - 1)

/-- A concrete oracle used by the witnesses: the inequality statuses of
basic map `0` against `1` are `st01`, those of `1` against `0` are `st10`,
equalities have no statuses, and all external decisions are benign. -/
def witOracle (st01 st10 : List Status) : Oracle where
  eqStatus := fun _ _ _ => []
  ineqStatus := fun _ i _ => if i == 0 then st01 else st10
  adjExt := fun _ _ _ => some false
  tabIsEquality := fun _ _ _ => false
  adjEqExtContains := fun _ _ _ _ => some false
  wrapFacetRows := fun _ _ _ _ => some []
  eqAdjEqWraps := fun _ _ _ => some []
  facetsTest := fun _ _ _ => some false
  cutsRelaxRedundant := fun _ _ _ => some false
  wrapInFacetsRows := fun _ _ _ => some []
  mergeDivsMatch := fun _ _ _ => some false
  subsetEqStatus := fun _ _ _ => []
  subsetIneqStatus := fun _ _ _ => []
  detectPairs := id
  gauss := id
  freshTab := fun _ _ _ => 7

/-- A two-element map state used by the witnesses. -/
def witState (b1 b2 : BasicMap) : MapState := ⟨[b1, b2], [0, 1]⟩

/-- An integer basic map `{ x | 1 >= 0 }` used by the witnesses. -/
def witBmap : BasicMap := ⟨[], [[1]], [], false, false⟩

/-- A rational basic map used by the witnesses. -/
def witBmapRat : BasicMap := ⟨[], [[1]], [], true, false⟩

/-- The invariant maintained by the scheduler along one edge with initial
relation `R`: for every dependence pair, either the pair is still in the
remaining relation and its schedule values agree, or its sink value is
already lexicographically strictly above its source value. -/
def edgeInv {α β : Type} (R : α → β → Prop) (s : EdgeState α β) : Prop :=
  ∀ x y, R x y →
    (s.rel x y ∧ srcVals s x = dstVals s y) ∨
    lexLtB (srcVals s x) (dstVals s y) = true

/-- Initial per-edge state used by the claim C2 witness. -/
def witEdgeInit : EdgeState Unit Unit :=
  { rel := fun _ _ => True, src := [], dst := [] }

/-- One-row schedule block used by the claim C2 witness. -/
def witEdgeBlockSrc : List (Unit → Int) := [fun _ => 0]

def witEdgeBlockDst : List (Unit → Int) := [fun _ => 0]

/-- The per-edge state after appending one zero row on both sides. -/
def witEdgeNext : EdgeState Unit Unit :=
  { rel := fun x y => witEdgeInit.rel x y ∧
      (witEdgeInit.src ++ witEdgeBlockSrc).map (fun f => f x) =
        (witEdgeInit.dst ++ witEdgeBlockDst).map (fun g => g y),
    src := witEdgeInit.src ++ witEdgeBlockSrc,
    dst := witEdgeInit.dst ++ witEdgeBlockDst }

/-! ### Helper lemmas -/

theorem dropAt_p_length (s : MapState) (i : Nat) :
    (dropAt s i).p.length = s.p.length - 1 := by
  simp [dropAt]

theorem exchange_p_length (s : MapState) (i j : Nat) :
    (exchange s i j).p.length = s.p.length := by
  simp [exchange]

theorem fuseCore_fst (O : Oracle) (s : MapState) (i j : Nat)
    (eqI : Option (List Status)) (ineqI : List Status)
    (eqJ : Option (List Status)) (ineqJ : List Status)
    (extra : List Row) (de : Bool) :
    (fuseCore O s i j eqI ineqI eqJ ineqJ extra de).1 = true := rfl

theorem fuseCore_p_length (O : Oracle) (s : MapState) (i j : Nat)
    (eqI : Option (List Status)) (ineqI : List Status)
    (eqJ : Option (List Status)) (ineqJ : List Status)
    (extra : List Row) (de : Bool) :
    (fuseCore O s i j eqI ineqI eqJ ineqJ extra de).2.p.length =
      s.p.length - 1 := by
  simp [fuseCore, dropAt]

theorem fuse_fst (O : Oracle) (s : MapState) (i j : Nat)
    (eqI : Option (List Status)) (ineqI : List Status)
    (eqJ : Option (List Status)) (ineqJ : List Status)
    (extra : List Row) (de : Bool) :
    (fuse O s i j eqI ineqI eqJ ineqJ extra de).1 = true := by
  unfold fuse
  split <;> rfl

theorem fuse_p_length (O : Oracle) (s : MapState) (i j : Nat)
    (eqI : Option (List Status)) (ineqI : List Status)
    (eqJ : Option (List Status)) (ineqJ : List Status)
    (extra : List Row) (de : Bool) :
    (fuse O s i j eqI ineqI eqJ ineqJ extra de).2.p.length =
      s.p.length - 1 := by
  unfold fuse
  split <;> apply fuseCore_p_length

theorem fuse_pairPost (O : Oracle) (s : MapState) (i j : Nat)
    (eqI : Option (List Status)) (ineqI : List Status)
    (eqJ : Option (List Status)) (ineqJ : List Status)
    (extra : List Row) (de : Bool) (b : Bool) (s1 : MapState)
    (h : fuse O s i j eqI ineqI eqJ ineqJ extra de = (b, s1)) :
    pairPost s b s1 := by
  right
  have h1 := fuse_fst O s i j eqI ineqI eqJ ineqJ extra de
  have h2 := fuse_p_length O s i j eqI ineqI eqJ ineqJ extra de
  rw [h] at h1 h2
  exact ⟨h1, h2⟩

theorem checkFacets_pairPost (O : Oracle) (s : MapState) (i j : Nat)
    (ineqI ineqJ : List Status) (b : Bool) (s1 : MapState)
    (h : checkFacets O s i j ineqI ineqJ = some (b, s1)) :
    pairPost s b s1 := by
  unfold checkFacets at h
  split at h
  · exact absurd h (by simp)
  · left
    simp_all
  · exact fuse_pairPost O s i j none ineqI none ineqJ [] false b s1
      (Option.some.inj h)

theorem isAdjIneqExtension_pairPost (O : Oracle) (s : MapState) (i j : Nat)
    (eqI ineqI eqJ ineqJ : List Status) (b : Bool) (s1 : MapState)
    (h : isAdjIneqExtension O s i j eqI ineqI eqJ ineqJ = some (b, s1)) :
    pairPost s b s1 := by
  unfold isAdjIneqExtension at h
  split at h
  · exact absurd h (by simp)
  · split at h
    · exact absurd h (by simp)
    · exact fuse_pairPost O s i j (some eqI) ineqI (some eqJ) ineqJ [] false
        b s1 (Option.some.inj h)
    · left
      simp_all

theorem checkAdjIneq_pairPost (O : Oracle) (s : MapState) (i j : Nat)
    (eqI ineqI eqJ ineqJ : List Status) (b : Bool) (s1 : MapState)
    (h : checkAdjIneq O s i j eqI ineqI eqJ ineqJ = some (b, s1)) :
    pairPost s b s1 := by
  unfold checkAdjIneq at h
  simp only [] at h
  split at h
  · left
    simp_all
  · split at h
    · exact fuse_pairPost O s i j none ineqI none ineqJ [] false b s1
        (Option.some.inj h)
    · split at h
      · exact isAdjIneqExtension_pairPost O s i j eqI ineqI eqJ ineqJ b s1 h
      · split at h
        · exact isAdjIneqExtension_pairPost O s j i eqJ ineqJ eqI ineqI b s1 h
        · left
          simp_all

theorem isAdjEqExtension_pairPost (O : Oracle) (s : MapState) (i j k : Nat)
    (b : Bool) (s1 : MapState)
    (h : isAdjEqExtension O s i j k = some (b, s1)) :
    pairPost s b s1 := by
  unfold isAdjEqExtension at h
  split at h
  · left
    simp_all
  · split at h
    · exact absurd h (by simp)
    · simp only [] at h
      split at h <;>
      · right
        refine ⟨by simp_all, ?_⟩
        have hs1 := ((Prod.mk.injEq _ _ _ _).mp (Option.some.inj h)).2
        rw [← hs1]
        simp [dropAt, exchange]
    · left
      simp_all

theorem canWrapInFacet_pairPost (O : Oracle) (s : MapState) (i j k : Nat)
    (eqI ineqI eqJ ineqJ : List Status) (b : Bool) (s1 : MapState)
    (h : canWrapInFacet O s i j k eqI ineqI eqJ ineqJ = some (b, s1)) :
    pairPost s b s1 := by
  unfold canWrapInFacet at h
  split at h
  · exact absurd h (by simp)
  · left
    simp_all
  · exact fuse_pairPost O s i j (some eqI) ineqI (some eqJ) ineqJ _ false b s1
      (Option.some.inj h)

theorem checkAdjEqCore_pairPost (O : Oracle) (s : MapState) (i j : Nat)
    (eqI ineqI eqJ ineqJ : List Status) (b : Bool) (s1 : MapState)
    (h : checkAdjEqCore O s i j eqI ineqI eqJ ineqJ = some (b, s1)) :
    pairPost s b s1 := by
  unfold checkAdjEqCore at h
  simp only [] at h
  split at h
  · left
    simp_all
  · split at h
    · left
      simp_all
    · split at h
      · left
        simp_all
      · split at h
        · exact absurd h (by simp)
        · rename_i s2 heq
          have hp := isAdjEqExtension_pairPost O s i j _ true s2 heq
          rcases hp with ⟨hfalse, _⟩ | ⟨_, hlen⟩
          · exact absurd hfalse (by simp)
          · right
            simp_all
        · split at h
          · left
            simp_all
          · exact canWrapInFacet_pairPost O s i j _ eqI ineqI eqJ ineqJ b s1 h

theorem checkAdjEq_pairPost (O : Oracle) (s : MapState) (i j : Nat)
    (eqI ineqI eqJ ineqJ : List Status) (b : Bool) (s1 : MapState)
    (h : checkAdjEq O s i j eqI ineqI eqJ ineqJ = some (b, s1)) :
    pairPost s b s1 := by
  unfold checkAdjEq at h
  split at h
  · left
    simp_all
  · split at h
    · exact checkAdjEqCore_pairPost O s j i eqJ ineqJ eqI ineqI b s1 h
    · exact checkAdjEqCore_pairPost O s i j eqI ineqI eqJ ineqJ b s1 h

theorem checkEqAdjEq_pairPost (O : Oracle) (s : MapState) (i j : Nat)
    (eqI ineqI eqJ ineqJ : List Status) (b : Bool) (s1 : MapState)
    (h : checkEqAdjEq O s i j eqI ineqI eqJ ineqJ = some (b, s1)) :
    pairPost s b s1 := by
  unfold checkEqAdjEq at h
  split at h
  · exact absurd h (by simp)
  · left
    simp_all
  · exact fuse_pairPost O s i j (some eqI) ineqI (some eqJ) ineqJ _ _ b s1
      (Option.some.inj h)

theorem canWrapInSet_pairPost (O : Oracle) (s : MapState) (i j : Nat)
    (eqI ineqI eqJ ineqJ : List Status) (b : Bool) (s1 : MapState)
    (h : canWrapInSet O s i j eqI ineqI eqJ ineqJ = some (b, s1)) :
    pairPost s b s1 := by
  unfold canWrapInSet at h
  simp only [] at h
  split at h
  · left
    simp_all
  · split at h
    · left
      simp_all
    · split at h
      · exact absurd h (by simp)
      · left
        simp_all
      · split at h
        · exact absurd h (by simp)
        · left
          simp_all
        · exact fuse_pairPost O s i j (some eqI) ineqI (some eqJ) ineqJ _ false
            b s1 (Option.some.inj h)

theorem checkWrap_pairPost (O : Oracle) (s : MapState) (i j : Nat)
    (eqI ineqI eqJ ineqJ : List Status) (b : Bool) (s1 : MapState)
    (h : checkWrap O s i j eqI ineqI eqJ ineqJ = some (b, s1)) :
    pairPost s b s1 := by
  unfold checkWrap at h
  split at h
  · split at h
    · exact absurd h (by simp)
    · rename_i s2 heq
      have hp := canWrapInSet_pairPost O s i j eqI ineqI eqJ ineqJ true s2 heq
      rcases hp with ⟨hfalse, _⟩ | ⟨_, hlen⟩
      · exact absurd hfalse (by simp)
      · right
        simp_all
    · split at h
      · exact canWrapInSet_pairPost O s j i eqJ ineqJ eqI ineqI b s1 h
      · left
        simp_all
  · split at h
    · exact canWrapInSet_pairPost O s j i eqJ ineqJ eqI ineqI b s1 h
    · left
      simp_all

theorem checkFacetsOrWrap_pairPost (O : Oracle) (s : MapState) (i j : Nat)
    (eqI ineqI eqJ ineqJ : List Status) (b : Bool) (s1 : MapState)
    (h : checkFacetsOrWrap O s i j eqI ineqI eqJ ineqJ = some (b, s1)) :
    pairPost s b s1 := by
  unfold checkFacetsOrWrap at h
  split at h
  · exact absurd h (by simp)
  · rename_i s2 heq
    split at heq
    · have hp := checkFacets_pairPost O s i j _ _ true s2 heq
      rcases hp with ⟨hfalse, _⟩ | ⟨_, hlen⟩
      · exact absurd hfalse (by simp)
      · right
        simp_all
    · exact absurd heq (by simp)
  · exact checkWrap_pairPost O s i j _ _ _ _ b s1 h

theorem coalesceLocalPairDispatch_pairPost (O : Oracle) (s : MapState)
    (i j : Nat) (eqI eqJ ineqI ineqJ : List Status) (b : Bool) (s1 : MapState)
    (h : coalesceLocalPairDispatch O s i j eqI eqJ ineqI ineqJ = some (b, s1)) :
    pairPost s b s1 := by
  unfold coalesceLocalPairDispatch at h
  repeat' split at h
  all_goals first
    | exact Option.noConfusion h
    | (rw [Option.some.injEq, Prod.mk.injEq] at h
       left
       exact ⟨h.1.symm, h.2.symm⟩)
    | (rw [Option.some.injEq, Prod.mk.injEq] at h
       right
       refine ⟨h.1.symm, ?_⟩
       rw [← h.2]
       exact dropAt_p_length s j)
    | (rw [Option.some.injEq, Prod.mk.injEq] at h
       right
       refine ⟨h.1.symm, ?_⟩
       rw [← h.2]
       exact dropAt_p_length s i)
    | exact checkEqAdjEq_pairPost O s i j _ _ _ _ b s1 h
    | exact checkEqAdjEq_pairPost O s j i _ _ _ _ b s1 h
    | exact checkAdjEq_pairPost O s i j _ _ _ _ b s1 h
    | exact checkAdjIneq_pairPost O s i j _ _ _ _ b s1 h
    | exact checkFacetsOrWrap_pairPost O s i j _ _ _ _ b s1 h

theorem coalesceLocalPairSt_pairPost (O : Oracle) (s : MapState) (i j : Nat)
    (eqI eqJ ineqI ineqJ : List Status) (b : Bool) (s1 : MapState)
    (h : coalesceLocalPairSt O s i j eqI eqJ ineqI ineqJ = some (b, s1)) :
    pairPost s b s1 := by
  unfold coalesceLocalPairSt at h
  repeat' split at h
  all_goals first
    | exact Option.noConfusion h
    | (rw [Option.some.injEq, Prod.mk.injEq] at h
       left
       exact ⟨h.1.symm, h.2.symm⟩)
    | exact coalesceLocalPairDispatch_pairPost O s i j _ _ _ _ b s1 h

theorem coalesceLocalPair_pairPost (O : Oracle) (s : MapState) (i j : Nat)
    (b : Bool) (s1 : MapState)
    (h : coalesceLocalPair O s i j = some (b, s1)) :
    pairPost s b s1 :=
  coalesceLocalPairSt_pairPost O s i j _ _ _ _ b s1 h

theorem coalesceSubset_pairPost (O : Oracle) (s : MapState) (i j : Nat)
    (b : Bool) (s1 : MapState)
    (h : coalesceSubset O s i j = some (b, s1)) :
    pairPost s b s1 := by
  unfold coalesceSubset at h
  simp only [] at h
  repeat' split at h
  all_goals first
    | exact Option.noConfusion h
    | (rw [Option.some.injEq, Prod.mk.injEq] at h
       left
       exact ⟨h.1.symm, h.2.symm⟩)
    | (rw [Option.some.injEq, Prod.mk.injEq] at h
       right
       refine ⟨h.1.symm, ?_⟩
       rw [← h.2]
       exact dropAt_p_length s j)

theorem checkCoalesceSubsetCore_pairPost (O : Oracle) (s : MapState)
    (i j : Nat) (b : Bool) (s1 : MapState)
    (h : checkCoalesceSubsetCore O s i j = some (b, s1)) :
    pairPost s b s1 := by
  unfold checkCoalesceSubsetCore at h
  split at h
  · left
    simp_all
  · split at h
    · exact absurd h (by simp)
    · left
      simp_all
    · exact coalesceSubset_pairPost O s i j b s1 h

theorem checkCoalesceSubset_pairPost (O : Oracle) (s : MapState)
    (i j : Nat) (b : Bool) (s1 : MapState)
    (h : checkCoalesceSubset O s i j = some (b, s1)) :
    pairPost s b s1 := by
  unfold checkCoalesceSubset at h
  split at h
  · left
    simp_all
  · split at h
    · exact checkCoalesceSubsetCore_pairPost O s j i b s1 h
    · exact checkCoalesceSubsetCore_pairPost O s i j b s1 h

theorem coalescePair_pairPost (O : Oracle) (s : MapState) (i j : Nat)
    (b : Bool) (s1 : MapState)
    (h : coalescePair O s i j = some (b, s1)) :
    pairPost s b s1 := by
  unfold coalescePair at h
  split at h
  · exact coalesceLocalPair_pairPost O s i j b s1 h
  · exact checkCoalesceSubset_pairPost O s i j b s1 h

theorem coalesceAux_fuel_mono
    (pair : MapState → Nat → Nat → Option (Bool × MapState))
    (fuel f : Nat) (s : MapState) (i j : Nat)
    (h : coalesceAux pair fuel s i j ≠ CoalesceResult.fuelOut) :
    coalesceAux pair (fuel + f) s i j = coalesceAux pair fuel s i j := by
  induction fuel generalizing f s i j with
  | zero => exact absurd rfl h
  | succ n ih =>
    rw [show n + 1 + f = (n + f) + 1 from by omega]
    by_cases hj : j < s.p.length
    · cases hpair : pair s i j with
      | none => simp [coalesceAux, hj, hpair]
      | some r =>
        obtain ⟨b, s1⟩ := r
        cases b
        · simp only [coalesceAux, hj, if_true, hpair] at h ⊢
          exact ih f s1 i (j + 1) h
        · simp only [coalesceAux, hj, if_true, hpair] at h ⊢
          exact ih f s1 i (i + 1) h
    · by_cases hi : i = 0
      · simp [coalesceAux, hj, hi]
      · simp only [coalesceAux, hj, if_false, hi, if_true] at h ⊢
        exact ih f s (i - 1) i h

theorem coalesceAux_halts
    (pair : MapState → Nat → Nat → Option (Bool × MapState))
    (hp : ∀ s i j b s1, pair s i j = some (b, s1) → pairPost s b s1)
    (s : MapState) (i j : Nat) :
    ∃ fuel, coalesceAux pair fuel s i j ≠ CoalesceResult.fuelOut := by
  by_cases hj : j < s.p.length
  · cases hpair : pair s i j with
    | none => exact ⟨1, by simp [coalesceAux, hj, hpair]⟩
    | some r =>
      obtain ⟨b, s1⟩ := r
      cases b
      · have hs1 : s1 = s := by
          rcases hp s i j false s1 hpair with ⟨_, he⟩ | ⟨hc, _⟩
          · exact he
          · exact Bool.noConfusion hc
        obtain ⟨fuel, hf⟩ := coalesceAux_halts pair hp s i (j + 1)
        refine ⟨fuel + 1, ?_⟩
        simp only [coalesceAux, hj, if_true, hpair]
        rw [hs1]
        exact hf
      · have hlen : s1.p.length = s.p.length - 1 := by
          rcases hp s i j true s1 hpair with ⟨hc, _⟩ | ⟨_, he⟩
          · exact Bool.noConfusion hc
          · exact he
        obtain ⟨fuel, hf⟩ := coalesceAux_halts pair hp s1 i (i + 1)
        refine ⟨fuel + 1, ?_⟩
        simp only [coalesceAux, hj, if_true, hpair]
        exact hf
  · by_cases hi : i = 0
    · exact ⟨1, by simp [coalesceAux, hj, hi]⟩
    · obtain ⟨fuel, hf⟩ := coalesceAux_halts pair hp s (i - 1) i
      refine ⟨fuel + 1, ?_⟩
      simp only [coalesceAux, hj, if_false, hi, if_true]
      exact hf
termination_by (s.p.length, i, s.p.length + 1 - j)
decreasing_by
  · apply Prod.Lex.right
    apply Prod.Lex.right
    omega
  · apply Prod.Lex.left
    omega
  · apply Prod.Lex.right
    apply Prod.Lex.left
    omega

theorem coalesceAux_done_length
    (pair : MapState → Nat → Nat → Option (Bool × MapState))
    (hp : ∀ s i j b s1, pair s i j = some (b, s1) → pairPost s b s1)
    (fuel : Nat) (s : MapState) (i j : Nat) (s1 : MapState)
    (h : coalesceAux pair fuel s i j = CoalesceResult.done s1) :
    s1.p.length ≤ s.p.length := by
  induction fuel generalizing s i j with
  | zero => exact CoalesceResult.noConfusion h
  | succ n ih =>
    by_cases hj : j < s.p.length
    · cases hpair : pair s i j with
      | none => simp [coalesceAux, hj, hpair] at h
      | some r =>
        obtain ⟨b, s2⟩ := r
        cases b
        · have hs2 : s2 = s := by
            rcases hp s i j false s2 hpair with ⟨_, he⟩ | ⟨hc, _⟩
            · exact he
            · exact Bool.noConfusion hc
          simp only [coalesceAux, hj, if_true, hpair] at h
          rw [← hs2]
          exact ih s2 i (j + 1) h
        · have hlen : s2.p.length = s.p.length - 1 := by
            rcases hp s i j true s2 hpair with ⟨hc, _⟩ | ⟨_, he⟩
            · exact Bool.noConfusion hc
            · exact he
          simp only [coalesceAux, hj, if_true, hpair] at h
          have := ih s2 i (i + 1) h
          omega
    · by_cases hi : i = 0
      · simp only [coalesceAux, hj, if_false, hi, if_true] at h
        cases h
        exact Nat.le_refl _
      · simp only [coalesceAux, hj, if_false, hi, if_true] at h
        exact ih s (i - 1) i h

theorem fuseIneqPick_eq_filter (l : List Row) (st : List Status) :
    fuseIneqPick l st =
      ((l.zip st).filter (fun p => p.2 == Status.valid)).map Prod.fst := by
  induction l generalizing st with
  | nil => simp [fuseIneqPick]
  | cons r rs ih =>
    cases st with
    | nil => simp [fuseIneqPick]
    | cons t ts =>
      by_cases ht : t == Status.valid <;>
        simp [fuseIneqPick, ht, ih]

theorem dropAt_getD_lt (s : MapState) (k i : Nat) (hik : i < k)
    (hk : k < s.p.length) :
    (dropAt s k).p.getD i default = s.p.getD i default := by
  unfold dropAt
  have h1 : i < s.p.length - 1 := by omega
  rw [List.getD_eq_getElem?_getD, List.getElem?_take_of_lt (by simpa using h1),
    List.getElem?_set_ne (by omega), ← List.getD_eq_getElem?_getD]

/-! ### Claim theorems -/

/-- Claim C4: every invocation of `coalesce_pair` that reports a change
removes exactly one basic map (the change paths all end in a single
`drop`, directly or through `fuse`), an unchanged invocation leaves the
map untouched, and the restarting double loop of `coalesce` never
increases the number of basic maps and terminates on every input: some
finite fuel suffices, and any sufficient fuel computes the same result. -/
theorem claim_c4_coalesce_termination (O : Oracle) :
    (∀ s i j s1, j < s.p.length →
        coalescePair O s i j = some (true, s1) →
        s1.p.length + 1 = s.p.length) ∧
    (∀ s i j s1, coalescePair O s i j = some (false, s1) → s1 = s) ∧
    (∀ fuel f s i j,
        coalesceAux (coalescePair O) fuel s i j ≠ CoalesceResult.fuelOut →
        coalesceAux (coalescePair O) (fuel + f) s i j =
          coalesceAux (coalescePair O) fuel s i j) ∧
    (∀ s i j, ∃ fuel,
        coalesceAux (coalescePair O) fuel s i j ≠ CoalesceResult.fuelOut) ∧
    (∀ fuel s i j s1,
        coalesceAux (coalescePair O) fuel s i j = CoalesceResult.done s1 →
        s1.p.length ≤ s.p.length) := by
  refine ⟨?_, ?_, ?_, ?_, ?_⟩
  · intro s i j s1 hj hp
    rcases coalescePair_pairPost O s i j true s1 hp with ⟨hc, _⟩ | ⟨_, hlen⟩
    · exact Bool.noConfusion hc
    · omega
  · intro s i j s1 hp
    rcases coalescePair_pairPost O s i j false s1 hp with ⟨_, he⟩ | ⟨hc, _⟩
    · exact he
    · exact Bool.noConfusion hc
  · intro fuel f s i j h
    exact coalesceAux_fuel_mono (coalescePair O) fuel f s i j h
  · intro s i j
    exact coalesceAux_halts (coalescePair O)
      (fun s i j b s1 => coalescePair_pairPost O s i j b s1) s i j
  · intro fuel s i j s1 h
    exact coalesceAux_done_length (coalescePair O)
      (fun s i j b s1 => coalescePair_pairPost O s i j b s1) fuel s i j s1 h

/-- Witness for claim C4: on a concrete two-element map whose second
basic map is subsumed by the first, `coalesce_pair` reports a change and
the count drops from 2 to 1. -/
theorem claim_c4_coalesce_termination_witness :
    (dropAt (witState witBmap witBmap) 1).p.length + 1 =
      (witState witBmap witBmap).p.length :=
  (claim_c4_coalesce_termination (witOracle [Status.valid] [Status.valid])).1
    (witState witBmap witBmap) 0 1 (dropAt (witState witBmap witBmap) 1)
    (by decide) rfl

/-- Claim C9: when no status is `SEPARATE` or `ERROR`, neither basic map
subsumes the other, some inequality is classified `ADJ_EQ` while no
equality of either basic map is classified `ADJ_EQ` or `ADJ_INEQ`,
`coalesce_local_pair` takes the `BAD ADJ INEQ` branch and performs no
merge: it reports no change and returns the state (basic maps, tableaux
and count) unchanged. -/
theorem claim_c9_bad_adj_ineq_noop (O : Oracle) (s : MapState) (i j : Nat)
    (h1 : anyStat (O.eqStatus s i j) Status.error = false)
    (h2 : anyStat (O.eqStatus s i j) Status.separate = false)
    (h3 : anyStat (O.eqStatus s j i) Status.error = false)
    (h4 : anyStat (O.eqStatus s j i) Status.separate = false)
    (h5 : anyStat (O.ineqStatus s i j) Status.error = false)
    (h6 : anyStat (O.ineqStatus s i j) Status.separate = false)
    (h7 : anyStat (O.ineqStatus s j i) Status.error = false)
    (h8 : anyStat (O.ineqStatus s j i) Status.separate = false)
    (h9 : (allStat (O.eqStatus s i j) Status.valid &&
           allStat (O.ineqStatus s i j) Status.valid) = false)
    (h10 : (allStat (O.eqStatus s j i) Status.valid &&
            allStat (O.ineqStatus s j i) Status.valid) = false)
    (h11 : anyStat (O.eqStatus s i j) Status.adjEq = false)
    (h12 : anyStat (O.eqStatus s j i) Status.adjEq = false)
    (h13 : anyStat (O.eqStatus s i j) Status.adjIneq = false)
    (h14 : anyStat (O.eqStatus s j i) Status.adjIneq = false)
    (h15 : (anyStat (O.ineqStatus s i j) Status.adjEq ||
            anyStat (O.ineqStatus s j i) Status.adjEq) = true) :
    coalesceLocalPair O s i j = some (false, s) := by
  unfold coalesceLocalPair coalesceLocalPairSt coalesceLocalPairDispatch
  simp [h1, h2, h3, h4, h5, h6, h7, h8, h9, h10, h11, h12, h13, h14, h15]

/-- Witness for claim C9 at a concrete state: basic map 0 has one
inequality classified `ADJ_EQ` against basic map 1, basic map 1 has a cut
inequality against basic map 0, and nothing changes. -/
theorem claim_c9_bad_adj_ineq_noop_witness :
    coalesceLocalPair (witOracle [Status.adjEq] [Status.cut])
        (witState witBmap witBmap) 0 1 =
      some (false, witState witBmap witBmap) :=
  claim_c9_bad_adj_ineq_noop (witOracle [Status.adjEq] [Status.cut])
    (witState witBmap witBmap) 0 1 rfl rfl rfl rfl rfl rfl rfl rfl rfl rfl
    rfl rfl rfl rfl rfl

/-- Claim C3 counterexample: the claim's retry condition does not match
the code.  At `use_coincidence` with `schedule_outer_coincidence` forced
and a non-empty band, the code retries without coincidence while the
claim forbids the retry; and with coincidence off, an empty... rather a
non-empty band, `schedule_maximize_band_depth` set and a recorded SCC
pair, the code splits while the claim's fall-through order closes the
band first. -/
theorem claim_c3_counterexample :
    (infeasibleAction ⟨true, true, false, false, false⟩ =
        InfeasibleAction.retryNoCoincidence ∧
      claimedInfeasibleAction ⟨true, true, false, false, false⟩ ≠
        InfeasibleAction.retryNoCoincidence) ∧
    (infeasibleAction ⟨false, false, false, true, true⟩ =
        InfeasibleAction.splitSchedule ∧
      claimedInfeasibleAction ⟨false, false, false, true, true⟩ =
        InfeasibleAction.nextBand) := by
  decide

/-- Claim C3 (amended): when the main LP is infeasible,
`compute_schedule_wcc` drops the coincidence requirement and retries the
same band if and only if coincidence constraints were in use and (outer
coincidence is not forced or the current band is non-empty); under any
other infeasible outcome it closes the band when
`schedule_maximize_band_depth` is unset and the band is non-empty, then
splits on a recorded SCC pair, then closes a non-empty band, and
otherwise carries dependences. -/
theorem claim_c3_amended (s : WccState) :
    infeasibleAction s = amendedInfeasibleAction s := by
  obtain ⟨a, b, c, d, e⟩ := s
  cases a <;> cases b <;> cases c <;> cases d <;> cases e <;> rfl

/-- Claim C6: a basic map produced by `fuse` carries the rational flag if
and only if both fused source basic maps carried it, and the wrap-in rule
`can_wrap_in_set` never applies when either basic map of the pair is
marked rational, reporting no change and leaving the state untouched. -/
theorem claim_c6_rational_preservation (O : Oracle) :
    (∀ s i j eqI ineqI eqJ ineqJ extra de, i < j → j < s.p.length →
      (((fuseCore O s i j eqI ineqI eqJ ineqJ extra de).2).p.getD i
            default).rational =
        ((s.p.getD i default).rational && (s.p.getD j default).rational)) ∧
    (∀ s i j eqI ineqI eqJ ineqJ,
      ((s.p.getD i default).rational || (s.p.getD j default).rational) = true →
      canWrapInSet O s i j eqI ineqI eqJ ineqJ = some (false, s)) := by
  constructor
  · intro s i j eqI ineqI eqJ ineqJ extra de hij hj
    unfold fuseCore
    simp only []
    rw [dropAt_getD_lt _ j i hij (by simp; omega)]
    simp only []
    rw [List.getD_eq_getElem?_getD, List.getElem?_set_self (by omega)]
    rfl
  · intro s i j eqI ineqI eqJ ineqJ h
    unfold canWrapInSet
    simp only []
    rw [if_pos h]

/-- Witness for claim C6: fusing two rational basic maps yields a
rational basic map, and `can_wrap_in_set` refuses a rational pair. -/
theorem claim_c6_rational_preservation_witness :
    ((((fuseCore (witOracle [] []) (witState witBmapRat witBmapRat) 0 1
            none [] none [] [] false).2).p.getD 0 default).rational =
      (true && true)) ∧
    canWrapInSet (witOracle [] []) (witState witBmapRat witBmap) 0 1
        [] [] [] [] =
      some (false, witState witBmapRat witBmap) :=
  ⟨(claim_c6_rational_preservation (witOracle [] [])).1
      (witState witBmapRat witBmapRat) 0 1 none [] none [] [] false
      (by decide) (by decide),
    (claim_c6_rational_preservation (witOracle [] [])).2
      (witState witBmapRat witBmap) 0 1 [] [] [] [] rfl⟩

/-- Claim C7: `check_adj_ineq` combines the pair only if at least one
side has exactly one `ADJ_INEQ` inequality; when neither side has a cut
classification and each side has exactly one `ADJ_INEQ` inequality, the
pair is replaced (with a change report and one basic map fewer) by the
basic map built from the valid constraints of both sides -- the selection
keeps exactly the `STATUS_VALID` inequalities, so the two opposing
adjacent inequalities are dropped, while the equalities (all valid in
this branch) are kept. -/
theorem claim_c7_adj_ineq_rule (O : Oracle) (s : MapState) (i j : Nat)
    (eqI ineqI eqJ ineqJ : List Status) :
    (countStat ineqI Status.adjIneq ≠ 1 → countStat ineqJ Status.adjIneq ≠ 1 →
      checkAdjIneq O s i j eqI ineqI eqJ ineqJ = some (false, s)) ∧
    (countStat ineqI Status.adjIneq = 1 → countStat ineqJ Status.adjIneq = 1 →
      anyStat eqI Status.cut = false → anyStat ineqI Status.cut = false →
      anyStat eqJ Status.cut = false → anyStat ineqJ Status.cut = false →
      i < j →
      checkAdjIneq O s i j eqI ineqI eqJ ineqJ =
        some (true, (fuseCore O s i j none ineqI none ineqJ [] false).2) ∧
      (fuseCore O s i j none ineqI none ineqJ [] false).2.p.length =
        s.p.length - 1 ∧
      fuseSelect (s.p.getD i default) (s.p.getD j default) none ineqI none
          ineqJ [] =
        ((s.p.getD i default).eqs ++ (s.p.getD j default).eqs,
          (((s.p.getD i default).ineqs.zip ineqI).filter
              (fun p => p.2 == Status.valid)).map Prod.fst ++
            (((s.p.getD j default).ineqs.zip ineqJ).filter
              (fun p => p.2 == Status.valid)).map Prod.fst)) := by
  constructor
  · intro hci hcj
    unfold checkAdjIneq
    simp only []
    rw [if_pos]
    simp [bne_iff_ne, hci, hcj]
  · intro hci hcj hc1 hc2 hc3 hc4 hij
    refine ⟨?_, fuseCore_p_length O s i j none ineqI none ineqJ [] false, ?_⟩
    · unfold checkAdjIneq
      simp only []
      rw [if_neg (by simp [bne_iff_ne, hci, hcj]), if_pos (by
        simp [hci, hcj, hc1, hc2, hc3, hc4])]
      unfold fuse
      rw [if_neg (by omega)]
      rw [← fuseCore_fst O s i j none ineqI none ineqJ [] false]
    · unfold fuseSelect
      rw [fuseIneqPick_eq_filter, fuseIneqPick_eq_filter]
      simp [fuseEqPick]

theorem addWrapsIneq_ok_sound (wf : Row → Row → Option Row) (w : Wraps)
    (bound : Row) (l : List (Row × Bool)) (rs : List Row)
    (h : addWrapsIneq wf w bound l = WrapRes.ok rs) :
    ∀ p ∈ l, ¬skipIneqRow bound p → ¬badWrapRes w bound (wf bound p.1) := by
  induction l generalizing rs with
  | nil =>
    intro p hp
    exact absurd hp (List.not_mem_nil p)
  | cons q qs ih =>
    obtain ⟨c, red⟩ := q
    rw [addWrapsIneq] at h
    split at h
    · rename_i hb
      intro p hp hskip
      rcases List.mem_cons.mp hp with rfl | hp2
      · exact absurd (Or.inl (beq_iff_eq.mp hb)) hskip
      · exact ih rs h p hp2 hskip
    · split at h
      · rename_i hb
        intro p hp hskip
        rcases List.mem_cons.mp hp with rfl | hp2
        · exact absurd (Or.inr (Or.inl (beq_iff_eq.mp hb))) hskip
        · exact ih rs h p hp2 hskip
      · split at h
        · rename_i hb
          intro p hp hskip
          rcases List.mem_cons.mp hp with rfl | hp2
          · exact absurd (Or.inr (Or.inr hb)) hskip
          · exact ih rs h p hp2 hskip
        · split at h
          · exact WrapRes.noConfusion h
          · rename_i r hr
            split at h
            · exact WrapRes.noConfusion h
            · split at h
              · exact WrapRes.noConfusion h
              · rename_i hrb hal
                split at h
                · rename_i rs0 hrec
                  intro p hp hskip
                  rcases List.mem_cons.mp hp with rfl | hp2
                  · intro hbad
                    rcases hbad with hbad | ⟨r2, hr2, hal2⟩
                    · rw [hr] at hbad
                      exact hrb (by simp [Option.some.inj hbad])
                    · rw [hr] at hr2
                      rw [← Option.some.inj hr2] at hal2
                      simp [hal2] at hal
                  · exact ih rs0 hrec p hp2 hskip
                · rename_i x0 hne
                  exact (hne rs h).elim

theorem addWrapsEq_ok_sound (wf : Row → Row → Option Row) (w : Wraps)
    (bound : Row) (l : List Row) (rs : List Row)
    (h : addWrapsEq wf w bound l = WrapRes.ok rs) :
    ∀ e ∈ l, ¬skipEqRow bound e →
      ¬badWrapRes w bound (wf bound (negRow e)) ∧
      ¬badWrapRes w bound (wf bound e) := by
  induction l generalizing rs with
  | nil =>
    intro e he
    exact absurd he (List.not_mem_nil e)
  | cons c cs ih =>
    rw [addWrapsEq] at h
    split at h
    · rename_i hb
      intro e he hskip
      rcases List.mem_cons.mp he with rfl | he2
      · exact absurd (Or.inl (beq_iff_eq.mp hb)) hskip
      · exact ih rs h e he2 hskip
    · split at h
      · rename_i hb
        intro e he hskip
        rcases List.mem_cons.mp he with rfl | he2
        · exact absurd (Or.inr (beq_iff_eq.mp hb)) hskip
        · exact ih rs h e he2 hskip
      · split at h
        · exact WrapRes.noConfusion h
        · rename_i r1 hr1
          split at h
          · exact WrapRes.noConfusion h
          · split at h
            · exact WrapRes.noConfusion h
            · rename_i hrb1 hal1
              split at h
              · exact WrapRes.noConfusion h
              · rename_i r2 hr2
                split at h
                · exact WrapRes.noConfusion h
                · split at h
                  · exact WrapRes.noConfusion h
                  · rename_i hrb2 hal2
                    split at h
                    · rename_i rs0 hrec
                      intro e he hskip
                      rcases List.mem_cons.mp he with rfl | he2
                      · constructor
                        · intro hbad
                          rcases hbad with hbad | ⟨r3, hr3, hal3⟩
                          · rw [hr1] at hbad
                            exact hrb1 (by simp [Option.some.inj hbad])
                          · rw [hr1] at hr3
                            rw [← Option.some.inj hr3] at hal3
                            simp [hal3] at hal1
                        · intro hbad
                          rcases hbad with hbad | ⟨r3, hr3, hal3⟩
                          · rw [hr2] at hbad
                            exact hrb2 (by simp [Option.some.inj hbad])
                          · rw [hr2] at hr3
                            rw [← Option.some.inj hr3] at hal3
                            simp [hal3] at hal2
                      · exact ih rs0 hrec e he2 hskip
                    · rename_i x0 hne
                      exact (hne rs h).elim

theorem addWraps_discard (wf : Row → Row → Option Row) (w : Wraps)
    (ineqs : List (Row × Bool)) (eqs : List Row) (bound : Row) (w1 : Wraps)
    (h : addWraps wf w ineqs eqs bound = some w1)
    (hv : (∃ p ∈ ineqs, ¬skipIneqRow bound p ∧
            badWrapRes w bound (wf bound p.1)) ∨
          (∃ e ∈ eqs, ¬skipEqRow bound e ∧
            (badWrapRes w bound (wf bound (negRow e)) ∨
             badWrapRes w bound (wf bound e)))) :
    w1.mat = [] := by
  unfold addWraps at h
  split at h
  · exact Option.noConfusion h
  · rw [← Option.some.inj h]
  · rename_i rs1 hrec1
    split at h
    · exact Option.noConfusion h
    · rw [← Option.some.inj h]
    · rename_i rs2 hrec2
      exfalso
      rcases hv with ⟨p, hp, hskip, hbad⟩ | ⟨e, he, hskip, hbad⟩
      · exact addWrapsIneq_ok_sound wf w bound ineqs rs1 hrec1 p hp hskip hbad
      · have hs := addWrapsEq_ok_sound wf w bound eqs rs2 hrec2 e he hskip
        rcases hbad with hbad | hbad
        · exact hs.1 hbad
        · exact hs.2 hbad

theorem wrapsMaxIneqs_le_droppedMaxIneqs (l : List Row) (st : List Status)
    (c c1 : Int) (hc : c ≤ c1) :
    wrapsMaxIneqs l st c ≤ droppedMaxIneqs l st c1 := by
  induction l generalizing st c c1 with
  | nil => simpa [wrapsMaxIneqs, droppedMaxIneqs]
  | cons r rs ih =>
    cases st with
    | nil => simpa [wrapsMaxIneqs, droppedMaxIneqs]
    | cons t ts =>
      cases t with
      | valid => exact ih ts c c1 hc
      | redundant =>
        exact ih ts c (Max.max c1 (absMaxTail r))
          (le_trans hc (le_max_left _ _))
      | error =>
        exact ih ts (Max.max c (absMaxTail r)) (Max.max c1 (absMaxTail r))
          (max_le_max hc le_rfl)
      | separate =>
        exact ih ts (Max.max c (absMaxTail r)) (Max.max c1 (absMaxTail r))
          (max_le_max hc le_rfl)
      | cut =>
        exact ih ts (Max.max c (absMaxTail r)) (Max.max c1 (absMaxTail r))
          (max_le_max hc le_rfl)
      | adjEq =>
        exact ih ts (Max.max c (absMaxTail r)) (Max.max c1 (absMaxTail r))
          (max_le_max hc le_rfl)
      | adjIneq =>
        exact ih ts (Max.max c (absMaxTail r)) (Max.max c1 (absMaxTail r))
          (max_le_max hc le_rfl)

theorem wrapsMaxEqs_mono (l : List Row) (st : List Status) (c c1 : Int)
    (hc : c ≤ c1) : wrapsMaxEqs l st c ≤ wrapsMaxEqs l st c1 := by
  induction l generalizing st c c1 with
  | nil => simpa [wrapsMaxEqs]
  | cons r rs ih =>
    match st with
    | [] => simpa [wrapsMaxEqs]
    | [t] => simpa [wrapsMaxEqs]
    | t1 :: t2 :: ts =>
      rw [wrapsMaxEqs, wrapsMaxEqs]
      split


      · exact ih ts c c1 hc
      · exact ih ts (Max.max c (absMaxTail r)) (Max.max c1 (absMaxTail r))
          (max_le_max hc le_rfl)

theorem allowWrap_false_of_exceeds (w : Wraps) (r : Row) (hb : w.bound = true)
    (hx : ∃ a ∈ r.drop 1, w.max < (Int.natAbs a : Int)) :
    allowWrap w r = false := by
  obtain ⟨a, ha, hlt⟩ := hx
  unfold allowWrap
  rw [hb]
  simp only [Bool.not_true, Bool.false_or]
  rw [List.all_eq_false]
  refine ⟨a, ha, ?_⟩
  simp only [decide_eq_true_eq, not_le]
  exact hlt

/-- Claim C8: in `add_wraps`, a wrapped constraint identical to the bound
row `b` discards the whole wrap set (the matrix is reset to zero rows,
signalling unboundedness); with the `coalesce_bounded_wrapping` option
active, a wrapped row with a non-constant coefficient exceeding the cap
in absolute value likewise discards the whole wrap set; and the cap
computed by `wraps_init` is bounded by the largest absolute coefficient
over the constraints that `fuse` would drop (the code additionally skips
redundant inequalities when computing the cap, so its cap is at most the
one stated by the claim, and exceeding the claimed cap still discards the
set). -/
theorem claim_c8_wrap_discard :
    (∀ (wf : Row → Row → Option Row) (w : Wraps) (ineqs : List (Row × Bool))
        (eqs : List Row) (bound : Row) (w1 : Wraps),
      addWraps wf w ineqs eqs bound = some w1 →
      ((∃ p ∈ ineqs, ¬skipIneqRow bound p ∧ wf bound p.1 = some bound) ∨
        (∃ e ∈ eqs, ¬skipEqRow bound e ∧
          (wf bound (negRow e) = some bound ∨ wf bound e = some bound))) →
      w1.mat = []) ∧
    (∀ (wf : Row → Row → Option Row) (w : Wraps) (ineqs : List (Row × Bool))
        (eqs : List Row) (bound : Row) (w1 : Wraps),
      w.bound = true →
      addWraps wf w ineqs eqs bound = some w1 →
      ((∃ p ∈ ineqs, ¬skipIneqRow bound p ∧ ∃ r, wf bound p.1 = some r ∧
          ∃ a ∈ r.drop 1, w.max < (Int.natAbs a : Int)) ∨
        (∃ e ∈ eqs, ¬skipEqRow bound e ∧
          ((∃ r, wf bound (negRow e) = some r ∧
              ∃ a ∈ r.drop 1, w.max < (Int.natAbs a : Int)) ∨
            (∃ r, wf bound e = some r ∧
              ∃ a ∈ r.drop 1, w.max < (Int.natAbs a : Int))))) →
      w1.mat = []) ∧
    (∀ (mat0 : List Row) (bi bj : BasicMap) (eqI ineqI eqJ ineqJ : List Status),
      (wrapsInit true mat0 bi bj eqI ineqI eqJ ineqJ).bound = true ∧
      (wrapsInit true mat0 bi bj eqI ineqI eqJ ineqJ).max ≤
        droppedMax bj eqJ ineqJ (droppedMax bi eqI ineqI 0)) := by
  refine ⟨?_, ?_, ?_⟩
  · intro wf w ineqs eqs bound w1 h hv
    refine addWraps_discard wf w ineqs eqs bound w1 h ?_
    rcases hv with ⟨p, hp, hs, hb⟩ | ⟨e, he, hs, hb⟩
    · exact Or.inl ⟨p, hp, hs, Or.inl hb⟩
    · refine Or.inr ⟨e, he, hs, ?_⟩
      rcases hb with hb | hb
      · exact Or.inl (Or.inl hb)
      · exact Or.inr (Or.inl hb)
  · intro wf w ineqs eqs bound w1 hwb h hv
    refine addWraps_discard wf w ineqs eqs bound w1 h ?_
    rcases hv with ⟨p, hp, hs, r, hr, hx⟩ | ⟨e, he, hs, hb⟩
    · exact Or.inl ⟨p, hp, hs,
        Or.inr ⟨r, hr, allowWrap_false_of_exceeds w r hwb hx⟩⟩
    · refine Or.inr ⟨e, he, hs, ?_⟩
      rcases hb with ⟨r, hr, hx⟩ | ⟨r, hr, hx⟩
      · exact Or.inl (Or.inr ⟨r, hr, allowWrap_false_of_exceeds w r hwb hx⟩)
      · exact Or.inr (Or.inr ⟨r, hr, allowWrap_false_of_exceeds w r hwb hx⟩)
  · intro mat0 bi bj eqI ineqI eqJ ineqJ
    refine ⟨rfl, ?_⟩
    show wrapsUpdateMax bj eqJ ineqJ (wrapsUpdateMax bi eqI ineqI 0) ≤ _
    unfold wrapsUpdateMax droppedMax
    refine wrapsMaxIneqs_le_droppedMaxIneqs _ _ _ _ ?_
    refine wrapsMaxEqs_mono _ _ _ _ ?_
    exact wrapsMaxIneqs_le_droppedMaxIneqs _ _ _ _ le_rfl

/-- Witness for claim C8: a concrete wrap of the constraint `[2]` around
the bound `[5]` reproduces the bound and the wrap set collapses. -/
theorem claim_c8_wrap_discard_witness :
    (addWraps (fun b _ => some b) ⟨false, [[1]], 0⟩ [([2], false)] [] [5] =
        some ⟨false, [], 0⟩) ∧
    (⟨false, [], 0⟩ : Wraps).mat = [] :=
  ⟨rfl,
    claim_c8_wrap_discard.1 (fun b _ => some b) ⟨false, [[1]], 0⟩
      [([2], false)] [] [5] ⟨false, [], 0⟩ rfl
      (Or.inl ⟨([2], false), by decide, by decide, rfl⟩)⟩

/-- Witness for claim C7 at a concrete pair: one adjacent inequality on
each side, no cuts, and the fused basic map keeps exactly the valid
inequalities. -/
theorem claim_c7_adj_ineq_rule_witness :
    checkAdjIneq (witOracle [] []) (witState witBmap witBmap) 0 1
        [] [Status.adjIneq] [] [Status.adjIneq] =
      some (true, (fuseCore (witOracle [] []) (witState witBmap witBmap) 0 1
          none [Status.adjIneq] none [Status.adjIneq] [] false).2) :=
  ((claim_c7_adj_ineq_rule (witOracle [] []) (witState witBmap witBmap) 0 1
      [] [Status.adjIneq] [] [Status.adjIneq]).2
    rfl rfl rfl rfl rfl rfl (by decide)).1

theorem lexLeB_refl (as : List Int) : lexLeB as as = true := by
  induction as with
  | nil => rfl
  | cons a l ih => simp [lexLeB, ih]

theorem lexLtB_le (as bs : List Int) (h : lexLtB as bs = true) :
    lexLeB as bs = true := by
  induction as generalizing bs with
  | nil => exact Bool.noConfusion h
  | cons a l ih =>
    cases bs with
    | nil => exact Bool.noConfusion h
    | cons b m =>
      rw [lexLtB] at h
      rw [lexLeB]
      rcases Bool.or_eq_true_iff.mp h with h1 | h1
      · simp [h1]
      · rcases Bool.and_eq_true_iff.mp h1 with ⟨h2, h3⟩
        simp [h2, ih m h3]

theorem lexLtB_append (as bs cs ds : List Int) (h : lexLtB as bs = true) :
    lexLtB (as ++ cs) (bs ++ ds) = true := by
  induction as generalizing bs with
  | nil => exact Bool.noConfusion h
  | cons a l ih =>
    cases bs with
    | nil => exact Bool.noConfusion h
    | cons b m =>
      rw [lexLtB] at h
      rw [List.cons_append, List.cons_append, lexLtB]
      rcases Bool.or_eq_true_iff.mp h with h1 | h1
      · simp [h1]
      · rcases Bool.and_eq_true_iff.mp h1 with ⟨h2, h3⟩
        simp [h2, ih m h3]

theorem lexLtB_append_left (p as bs : List Int) (h : lexLtB as bs = true) :
    lexLtB (p ++ as) (p ++ bs) = true := by
  induction p with
  | nil => simpa
  | cons a l ih =>
    rw [List.cons_append, List.cons_append, lexLtB]
    simp [ih]

theorem lexLtB_of_le_of_ne (as bs : List Int) (hlen : as.length = bs.length)
    (hle : lexLeB as bs = true) (hne : as ≠ bs) : lexLtB as bs = true := by
  induction as generalizing bs with
  | nil =>
    cases bs with
    | nil => exact absurd rfl hne
    | cons b m => exact absurd hlen (by simp)
  | cons a l ih =>
    cases bs with
    | nil => exact Bool.noConfusion hle
    | cons b m =>
      rw [lexLeB] at hle
      rw [lexLtB]
      rcases Bool.or_eq_true_iff.mp hle with h1 | h1
      · simp [h1]
      · rcases Bool.and_eq_true_iff.mp h1 with ⟨h2, h3⟩
        have hab : a = b := by simpa using h2
        have hlm : l ≠ m := by
          intro hrfl
          exact hne (by rw [hab, hrfl])
        simp [h2, ih m (by simpa using hlen) h3 hlm]

theorem edgeInv_init {α β : Type} (R : α → β → Prop) :
    edgeInv R ⟨R, [], []⟩ :=
  fun _ _ h => Or.inl ⟨h, rfl⟩

theorem edgeInv_step {α β : Type} (R : α → β → Prop) (s s1 : EdgeState α β)
    (hstep : SchedStep s s1) (hinv : edgeInv R s) : edgeInv R s1 := by
  cases hstep with
  | block fs gs hnn hlen =>
    intro x y hR
    rcases hinv x y hR with ⟨hrel, heq⟩ | hlt
    · have hb := hnn x y hrel
      by_cases hbe : fs.map (fun f => f x) = gs.map (fun g => g y)
      · left
        constructor
        · show s.rel x y ∧
            (s.src ++ fs).map (fun f => f x) = (s.dst ++ gs).map (fun g => g y)
          refine ⟨hrel, ?_⟩
          rw [List.map_append, List.map_append]
          rw [show s.src.map (fun f => f x) = srcVals s x from rfl]
          rw [show s.dst.map (fun g => g y) = dstVals s y from rfl]
          rw [heq, hbe]
        · show (s.src ++ fs).map (fun f => f x) =
            (s.dst ++ gs).map (fun g => g y)
          rw [List.map_append, List.map_append]
          rw [show s.src.map (fun f => f x) = srcVals s x from rfl]
          rw [show s.dst.map (fun g => g y) = dstVals s y from rfl]
          rw [heq, hbe]
      · right
        show lexLtB ((s.src ++ fs).map (fun f => f x))
          ((s.dst ++ gs).map (fun g => g y)) = true
        rw [List.map_append, List.map_append]
        rw [show s.src.map (fun f => f x) = srcVals s x from rfl]
        rw [show s.dst.map (fun g => g y) = dstVals s y from rfl]
        rw [heq]
        refine lexLtB_append_left _ _ _ ?_
        refine lexLtB_of_le_of_ne _ _ (by simp [hlen]) hb hbe
    · right
      show lexLtB ((s.src ++ fs).map (fun f => f x))
        ((s.dst ++ gs).map (fun g => g y)) = true
      rw [List.map_append, List.map_append]
      exact lexLtB_append _ _ _ _ hlt

/-- Claim C2: along any run of the scheduler on a validity edge with
initial relation `R` -- each step appending a block of schedule rows that
is lexicographically non-decreasing on the pairs still in the remaining
relation (the guarantee the LP solver delivers for the constraints of
`add_all_validity_constraints` and the carry LP, modelled from the spec)
and updating the relation as `update_edge` does -- every pair `(x, y)` of
`R` ends with the schedule value of `y` lexicographically greater than or
equal to that of `x`. -/
theorem claim_c2_schedule_validity {α β : Type} (R : α → β → Prop)
    (s : EdgeState α β)
    (h : Relation.ReflTransGen SchedStep ⟨R, [], []⟩ s) :
    ∀ x y, R x y → lexLeB (srcVals s x) (dstVals s y) = true := by
  have hinv : edgeInv R s := by
    induction h with
    | refl => exact edgeInv_init R
    | tail hsteps hstep ih =>
      exact edgeInv_step R _ _ hstep ih
  intro x y hR
  rcases hinv x y hR with ⟨_, heq⟩ | hlt
  · rw [heq]
    exact lexLeB_refl _
  · exact lexLtB_le _ _ hlt

/-- Witness for claim C2: one step appending a zero row on both sides of
a total relation on unit instance sets. -/
theorem claim_c2_schedule_validity_witness :
    lexLeB (srcVals witEdgeNext ()) (dstVals witEdgeNext ()) = true :=
  claim_c2_schedule_validity witEdgeInit.rel witEdgeNext
    (Relation.ReflTransGen.single
      (SchedStep.block witEdgeInit witEdgeBlockSrc witEdgeBlockDst
        (fun x y _ => by cases x; cases y; decide) rfl))
    () () trivial

theorem maskFilter_mem (mask : List Bool) (l : List Nat) (b : Bool) (r : Nat)
    (hr : r ∈ maskFilter mask l b) : r ∈ l := by
  unfold maskFilter at hr
  simp only [List.mem_map] at hr
  obtain ⟨p, hp, rfl⟩ := hr
  have hp2 := List.mem_of_mem_filter hp
  exact (List.of_mem_zip hp2).2

theorem maskMerge_mem (mask : List Bool) (a1 a2 : List Nat) (r : Nat)
    (hr : r ∈ maskMerge mask a1 a2) : r ∈ a1 ∨ r ∈ a2 := by
  induction mask generalizing a1 a2 with
  | nil => exact absurd hr (by simp [maskMerge])
  | cons m ms ih =>
    cases m with
    | true =>
      cases a1 with
      | nil => exact absurd hr (by simp [maskMerge])
      | cons x xs =>
        rw [maskMerge] at hr
        rcases List.mem_cons.mp hr with rfl | hr2
        · exact Or.inl (List.mem_cons_self _ _)
        · rcases ih xs a2 hr2 with h | h
          · exact Or.inl (List.mem_cons_of_mem _ h)
          · exact Or.inr h
    | false =>
      cases a2 with
      | nil => exact absurd hr (by simp [maskMerge])
      | cons x xs =>
        rw [maskMerge] at hr
        rcases List.mem_cons.mp hr with rfl | hr2
        · exact Or.inr (List.mem_cons_self _ _)
        · rcases ih a1 xs hr2 with h | h
          · exact Or.inl h
          · exact Or.inr (List.mem_cons_of_mem _ h)

/-- Claim C10: along any complete run of the schedule computation on the
row-count state -- rows appended to all nodes simultaneously by
`update_schedule`, `sort_statements`, `split_on_scc` and `split_scaled`,
bands reset uniformly, and sub-schedules over node partitions recombined
with `pad_schedule` padding every node up to `n_total_row` -- a state in
which every node's schedule matrix has exactly `n_total_row` rows (as at
graph construction, where both are zero) ends in a state in which every
node's schedule matrix again has exactly `n_total_row` rows, so all
statements are mapped into a schedule space of the same dimension at
extraction time. -/
theorem claim_c10_uniform_schedule_rows (g g1 : RowState) (h : SRun g g1) :
    uniformRows g → uniformRows g1 := by
  induction h with
  | refl g => exact id
  | add g g2 hrun ih =>
    intro hu
    refine ih ?_
    intro r hr
    simp only [addRowAll, List.mem_map] at hr ⊢
    obtain ⟨r0, hr0, rfl⟩ := hr
    rw [hu r0 hr0]
  | reset g d g2 hrun ih =>
    intro hu
    refine ih ?_
    intro r hr
    simp only [resetRows, List.mem_map] at hr ⊢
    obtain ⟨r0, hr0, rfl⟩ := hr
    rw [hu r0 hr0]
  | split g mask a1 a2 t1 t2 g2 h1 h2 h3 ih1 ih2 ih3 =>
    intro hu
    have ha1 : uniformRows ⟨a1, t1⟩ := by
      refine ih1 ?_
      intro r hr
      exact hu r (maskFilter_mem mask g.rows true r hr)
    have ha2 : uniformRows ⟨a2, t2⟩ := by
      refine ih2 ?_
      intro r hr
      exact hu r (maskFilter_mem mask g.rows false r hr)
    refine ih3 ?_
    intro r hr
    simp only [padRows, List.mem_map] at hr ⊢
    obtain ⟨r0, hr0, rfl⟩ := hr
    have hr01 := maskMerge_mem mask a1 a2 r0 hr0
    rcases hr01 with h | h
    · have := ha1 r0 h
      simp only [uniformRows] at this ⊢
      omega
    · have := ha2 r0 h
      simp only [uniformRows] at this ⊢
      omega

theorem dot_nil_right (as : List Int) : dot as [] = 0 := by
  cases as <;> rfl

theorem dot_append (as bs : List Int) (v : List ℚ) :
    dot (as ++ bs) v = dot as v + dot bs (v.drop as.length) := by
  induction as generalizing v with
  | nil => simp [dot]
  | cons a l ih =>
    cases v with
    | nil => simp [dot, dot_nil_right]
    | cons x xs =>
      simp only [List.cons_append, dot, List.length_cons,
        List.drop_succ_cons, List.append_eq]
      rw [ih xs]
      ring

theorem dot_replicate_zero (n : Nat) (v : List ℚ) :
    dot (List.replicate n 0) v = 0 := by
  induction n generalizing v with
  | zero => simp [dot]
  | succ m ih =>
    cases v with
    | nil => simp [dot_nil_right]
    | cons x xs => simp [List.replicate_succ, dot, ih]

theorem dot_replicate_one (n : Nat) (v : List ℚ) :
    dot (List.replicate n 1) v = (v.take n).sum := by
  induction n generalizing v with
  | zero => simp [dot]
  | succ m ih =>
    cases v with
    | nil => simp [dot_nil_right]
    | cons x xs => simp [List.replicate_succ, dot, ih]

theorem dot_set_neg (n i : Nat) (hi : i < n) (w : List ℚ) :
    dot ((List.replicate n (0 : Int)).set i (-1)) w = -(w.getD i 0) := by
  induction n generalizing i w with
  | zero => omega
  | succ m ih =>
    cases i with
    | zero =>
      cases w with
      | nil => simp [List.replicate_succ, dot_nil_right]
      | cons x xs =>
        simp [List.replicate_succ, dot, dot_replicate_zero]
    | succ k =>
      cases w with
      | nil => simp [List.replicate_succ, dot_nil_right]
      | cons x xs =>
        simp [List.replicate_succ, dot, ih k (by omega) xs]

theorem carryFeasible_spec (nEdge nodeSz : Nat) (v : List ℚ)
    (hf : carryFeasible nEdge nodeSz v) :
    (∀ i < nEdge, 0 ≤ carrySlack v i ∧ carrySlack v i ≤ 1) ∧
    v.getD 0 0 = (nEdge : ℚ) - carrySlackSum nEdge v := by
  obtain ⟨hlen, hpos, heq, hineq⟩ := hf
  rw [carryTotal] at hlen
  rcases v with _ | ⟨a, _ | ⟨b, _ | ⟨c, w⟩⟩⟩
  · simp at hlen
    omega
  · simp at hlen
    omega
  · simp at hlen
    omega
  · have hwlen : w.length = nEdge + nodeSz := by
      simp at hlen
      omega
    have heval : rowEval (carryEqRow1 nEdge nodeSz) (a :: b :: c :: w) =
        -(nEdge : ℚ) + a + (w.take nEdge).sum := by
      rw [carryEqRow1, rowEval]
      simp only [List.cons_append, List.nil_append, List.headD_cons,
        List.drop_succ_cons, List.drop_zero, dot, List.append_eq]
      rw [dot_append]
      simp [dot_replicate_one, dot_replicate_zero]
      ring
    rw [heval] at heq
    have hsum : carrySlackSum nEdge (a :: b :: c :: w) = (w.take nEdge).sum := by
      rw [carrySlackSum]
      simp
    constructor
    · intro i hi
      have hslack : carrySlack (a :: b :: c :: w) i = w.getD i 0 := by
        rw [carrySlack, show 3 + i = i + 1 + 1 + 1 from by omega]
        simp [List.getD_cons_succ]
      have hub := hineq i hi
      have hieval : rowEval (carryIneqRow nEdge nodeSz i) (a :: b :: c :: w) =
          1 - w.getD i 0 := by
        rw [carryIneqRow, rowEval]
        simp only [List.cons_append, List.nil_append, List.headD_cons,
          List.drop_succ_cons, List.drop_zero, dot, List.append_eq]
        rw [dot_append]
        simp [dot_set_neg nEdge i hi, dot_replicate_zero]
        ring
      rw [hieval] at hub
      constructor
      · rw [hslack]
        have hiw : i < w.length := by omega
        rw [List.getD_eq_getElem w 0 hiw]
        exact hpos _ (by
          have := List.getElem_mem hiw
          simp [this])
      · rw [hslack]
        linarith
    · rw [hsum]
      simp only [List.getD_cons_zero]
      linarith

theorem carrySlackSum_nonneg (nEdge nodeSz : Nat) (v : List ℚ)
    (hf : carryFeasible nEdge nodeSz v) : 0 ≤ carrySlackSum nEdge v := by
  obtain ⟨_, hpos, _, _⟩ := hf
  refine List.sum_nonneg ?_
  intro x hx
  exact hpos x (List.mem_of_mem_drop (List.mem_of_mem_take hx))

/-- Claim C5: in the carry LP of `setup_carry_lp` there is one slack
`e_i` per basic map of each dependence relation; any feasible solution
satisfies `0 <= e_i <= 1` (non-negativity from the solver, the upper
bound from the dedicated inequality rows), and the first variable equals
`n_edge - sum of the e_i`, so the lexmin objective (minimising that first
variable) maximises the sum of the `e_i`; `carry_dependences` raises
"unable to carry dependences" exactly when that optimal sum is zero, and
on a trivial solution for a node that needs a row it falls back to
per-component scheduling exactly when the graph has more than one SCC,
raising "unable to construct non-trivial solution" otherwise. -/
theorem claim_c5_carry_lp (nEdge nodeSz : Nat) :
    (∀ v, carryFeasible nEdge nodeSz v →
      (∀ i < nEdge, 0 ≤ carrySlack v i ∧ carrySlack v i ≤ 1) ∧
      v.getD 0 0 = (nEdge : ℚ) - carrySlackSum nEdge v) ∧
    (∀ v v1, carryFeasible nEdge nodeSz v → carryFeasible nEdge nodeSz v1 →
      (v.getD 0 0 ≤ v1.getD 0 0 ↔
        carrySlackSum nEdge v1 ≤ carrySlackSum nEdge v)) ∧
    (∀ v t k, carryFeasible nEdge nodeSz v →
      (carryDecision nEdge false (v.getD 0 0) t k = CarryOutcome.errorCarry ↔
        carrySlackSum nEdge v = 0)) ∧
    (∀ v k, carryFeasible nEdge nodeSz v → carrySlackSum nEdge v ≠ 0 →
      carryDecision nEdge false (v.getD 0 0) true k =
        (if 1 < k then CarryOutcome.componentFallback
         else CarryOutcome.errorNonTrivial)) := by
  refine ⟨carryFeasible_spec nEdge nodeSz, ?_, ?_, ?_⟩
  · intro v v1 hv hv1
    rw [(carryFeasible_spec nEdge nodeSz v hv).2,
      (carryFeasible_spec nEdge nodeSz v1 hv1).2]
    constructor
    · intro h
      linarith
    · intro h
      linarith
  · intro v t k hv
    have hs := (carryFeasible_spec nEdge nodeSz v hv).2
    have hnn := carrySlackSum_nonneg nEdge nodeSz v hv
    constructor
    · intro h
      by_contra hne
      have hpos2 : 0 < carrySlackSum nEdge v := lt_of_le_of_ne hnn (Ne.symm hne)
      have hlt : v.getD 0 0 < (nEdge : ℚ) := by
        rw [hs]
        linarith
      rw [carryDecision] at h
      simp only [Bool.false_eq_true, if_false] at h
      rw [if_neg (by linarith)] at h
      split at h
      · split at h <;> exact CarryOutcome.noConfusion h
      · exact CarryOutcome.noConfusion h
    · intro h
      rw [carryDecision]
      simp only [Bool.false_eq_true, if_false]
      rw [if_pos (by rw [hs, h]; linarith)]
  · intro v k hv hne
    have hs := (carryFeasible_spec nEdge nodeSz v hv).2
    have hnn := carrySlackSum_nonneg nEdge nodeSz v hv
    have hpos2 : 0 < carrySlackSum nEdge v := lt_of_le_of_ne hnn (Ne.symm hne)
    rw [carryDecision]
    simp only [Bool.false_eq_true, if_false]
    rw [if_neg (by rw [hs]; linarith)]
    simp

/-- Witness for claim C5 at a concrete feasible carry-LP solution with a
single dependence basic map: the slack is `1` and the objective variable
is `0 = n_edge - 1`. -/
theorem claim_c5_carry_lp_witness :
    (∀ i < 1, 0 ≤ carrySlack [0, 0, 0, 1] i ∧ carrySlack [0, 0, 0, 1] i ≤ 1) ∧
    ([0, 0, 0, 1] : List ℚ).getD 0 0 =
      (1 : ℚ) - carrySlackSum 1 [0, 0, 0, 1] :=
  (claim_c5_carry_lp 1 0).1 [0, 0, 0, 1]
    ⟨by norm_num [carryTotal], by norm_num,
     by norm_num [carryEqRow1, rowEval, dot, List.replicate],
     by
       intro i hi
       interval_cases i
       norm_num [carryIneqRow, rowEval, dot, List.replicate]⟩

/-- Witness for claim C10: a run that appends one row to both nodes of a
two-node graph keeps the schedules uniform. -/
theorem claim_c10_uniform_schedule_rows_witness :
    uniformRows ⟨[1, 1], 1⟩ :=
  claim_c10_uniform_schedule_rows ⟨[0, 0], 0⟩ ⟨[1, 1], 1⟩
    (SRun.add ⟨[0, 0], 0⟩ ⟨[1, 1], 1⟩ (SRun.refl ⟨[1, 1], 1⟩))
    (by simp [uniformRows])

end Isl
